import Mathlib

/-!
# Verification of the SKOS memory-management core

Shallow embedding of the physical frame allocator, the paging layer and the
kernel heap allocator of `src/kernel/memory.c` / `src/kernel/memory.h`,
together with proofs settling the frozen claims about them.

Modelling conventions:
* machine integers (`uint32_t`, `size_t`) are modelled as `Nat`, with an
  explicit `% 2 ^ 32` wherever the C arithmetic can actually wrap;
* the frame bitmap (`uint32_t *bitmap`, one bit per frame, accessed via
  `bitmap[page / 32] & (1 << page % 32)`) is modelled as a `List Bool`
  indexed directly by the frame number — the packing of bits into 32-bit
  words is memory layout only, the code never reads a bitmap word in any
  other way;
* the page directory / page tables (`kernel_directory->tables[1024]`,
  `kernel_tables[pd]->pages[1024]`) are modelled as functions `Nat → Nat`
  holding the raw 32-bit entry values the C code stores;
* the intrusive doubly-linked heap block list is modelled as a `List` of
  block records in `next`-pointer order, with the block's own address kept
  as an explicit field.  The C code's `prev` pointers are the reverse links
  of the same list.  Payload memory contents are outside the model, so
  `kfree`/`krealloc` resolve a pointer's header by looking up its address
  in the block list (the C code reads the 17 bytes in front of the payload
  and rejects them via the magic-number check when they are not a live
  header).
-/

set_option maxRecDepth 100000

namespace SKOS

/-! ## Constants from memory.h -/

def PAGE_SIZE : Nat := 4096

def PAGE_ALIGN_MASK : Nat := 0xFFFFF000

def PAGE_OFFSET_MASK : Nat := 0x00000FFF

def PAGE_PRESENT : Nat := 0x1

def PAGE_WRITABLE : Nat := 0x2

def PAGE_USER : Nat := 0x4

def MULTIBOOT_MEMORY_AVAILABLE : Nat := 1

def HEAP_START_ADDR : Nat := 0xC0400000

def HEAP_INITIAL_SIZE : Nat := 0x100000

def HEAP_MAX_SIZE : Nat := 0x1000000

def HEAP_BLOCK_MAGIC : Nat := 0xDEADBEEF

/-- Value of `sizeof(heap_block_t)` for the `__attribute__((packed))` struct in
memory.h: `uint32_t magic` (4) + `uint32_t size` (4) + `bool is_free` (1) +
`struct heap_block *next` (4) + `struct heap_block *prev` (4) = 17 bytes on
the i386 target. -/
def sizeof_heap_block : Nat := 17

/-- The modulus of 32-bit machine arithmetic. -/
def U32 : Nat := 2 ^ 32

/-! ## Data model -/

/-- One record of the multiboot memory map
(`multiboot_memory_map_t`); `base_addr`/`length` are the combined 64-bit
values `(high << 32) | low`, `mtype` is the C field `type`. -/
structure multiboot_mmap_entry where
  base_addr : Nat
  length : Nat
  mtype : Nat
deriving DecidableEq

/-- Struct `physical_allocator_t`: the frame bitmap (one entry per 4 KiB frame,
`true` = allocated), sizes and the first-free hint. -/
structure physical_allocator_t where
  bitmap : List Bool
  total_pages : Nat
  used_pages : Nat
  first_free_page : Nat
deriving DecidableEq

/-- Read bit `page` of the frame bitmap:
`bitmap[page / 32] & (1 << (page % 32))` in the C code. -/
def bitGet (bm : List Bool) (page : Nat) : Bool := bm.getD page false

/-- Paging state: `kernel_directory->tables[pd]` and
`kernel_tables[pd]->pages[pt]`, holding raw 32-bit entries. -/
structure paging_state where
  directory : Nat → Nat
  ktables : Nat → Nat → Nat

/-- One heap block header (`heap_block_t`) together with the address the
header lives at.  `bsize` is the C field `size` (header + payload). -/
structure heap_block where
  addr : Nat
  magic : Nat
  bsize : Nat
  is_free : Bool
deriving DecidableEq

/-- Struct `heap_info_t`; `hsize` is the C field `size`, `first_block` is the
block list reached by following `next` pointers from `heap.first_block`. -/
structure heap_info_t where
  start_addr : Nat
  end_addr : Nat
  hsize : Nat
  first_block : List heap_block
  initialized : Bool
deriving DecidableEq

/-- The combined mutable state of the three components (the file-scoped
statics `phys_allocator`, `kernel_directory`/`kernel_tables`, `heap`). -/
structure KernelState where
  phys : physical_allocator_t
  paging : paging_state
  heap : heap_info_t

/-! ## Frame bitmap allocator (physical_memory_init and friends) -/

/-- The scan loop of `allocate_physical_page`:
`for (page = first_free_page; page < total_pages; page++)`, returning the
first page whose bitmap bit is clear.  The fuel argument is the number of
remaining loop iterations, `total_pages - page`. -/
def scan_free_aux (bm : List Bool) : Nat → Nat → Option Nat
  | 0, _ => none
  | k + 1, page => if bitGet bm page then scan_free_aux bm k (page + 1) else some page

def scan_free (bm : List Bool) (total page : Nat) : Option Nat :=
  scan_free_aux bm (total - page) page

/-- Function `allocate_physical_page`: first-fit scan from the hint; on success sets
the bit, bumps `used_pages`, advances the hint only when the hinted frame
itself was returned, and returns `page * PAGE_SIZE` (a `uint32_t`).
Returns 0 when no free page is found. -/
def allocate_physical_page (s : physical_allocator_t) : Nat × physical_allocator_t :=
  match scan_free s.bitmap s.total_pages s.first_free_page with
  | none => (0, s)
  | some page =>
      (page * PAGE_SIZE % U32,
       { s with
          bitmap := s.bitmap.set page true
          used_pages := s.used_pages + 1
          first_free_page :=
            if page = s.first_free_page then s.first_free_page + 1 else s.first_free_page })

/-- Function `free_physical_page`: silently ignores unaligned or out-of-range
addresses; clears the bit of an allocated frame, decrements `used_pages`
(the C `used_pages--` cannot wrap in any state where `used_pages` counts
the set bits, since the cleared bit contributes at least 1) and rewinds the
hint when the freed frame is below it. -/
def free_physical_page (s : physical_allocator_t) (page_addr : Nat) : physical_allocator_t :=
  if page_addr % PAGE_SIZE ≠ 0 then s
  else
    let page := page_addr / PAGE_SIZE
    if s.total_pages ≤ page then s
    else if bitGet s.bitmap page then
      { s with
          bitmap := s.bitmap.set page false
          used_pages := s.used_pages - 1
          first_free_page :=
            if page < s.first_free_page then page else s.first_free_page }
    else s

/-- First pass of `physical_memory_init`: the highest end address of any
`MULTIBOOT_MEMORY_AVAILABLE` entry below 4 GiB.  `start`, `size` and `end`
are `uint32_t` truncations of the 64-bit map fields, and `start + size`
wraps at 2^32 exactly as the C addition does. -/
def mmap_highest (mmap : List multiboot_mmap_entry) : Nat :=
  mmap.foldl
    (fun highest e =>
      if e.base_addr < U32 then
        let start := e.base_addr
        let size := e.length % U32
        let e_end := (start + size) % U32
        if e.mtype = MULTIBOOT_MEMORY_AVAILABLE ∧ highest < e_end then e_end else highest
      else highest)
    0

/-- The unconditional marking loop for one reserved memory-map region:
sets `count` consecutive bits starting at `page` and increments
`used_pages` for every one of them, whether or not the bit was already
set.  `count` is the number of iterations the C loop
`for (i = 0; i < num_pages && start_page + i < total_pages; i++)`
executes. -/
def mark_region (bm : List Bool) (used page : Nat) : Nat → List Bool × Nat
  | 0 => (bm, used)
  | k + 1 => mark_region (bm.set page true) (used + 1) (page + 1) k

/-- Conditional marking of one page (used for the kernel image and the
first 1 MiB): sets the bit and counts it only when it was clear. -/
def mark_page_cond (bm : List Bool) (used page : Nat) : List Bool × Nat :=
  if bitGet bm page then (bm, used) else (bm.set page true, used + 1)

/-- Conditional marking loop over `count` consecutive pages starting at
`page` (the loops `for (page = lo; page < hi && page < total_pages; page++)`
run `min hi total - lo` iterations). -/
def mark_range_cond (bm : List Bool) (used page : Nat) : Nat → List Bool × Nat
  | 0 => (bm, used)
  | k + 1 =>
      let r := mark_page_cond bm used page
      mark_range_cond r.1 r.2 (page + 1) k

/-- The number of loop iterations of the reserved-region marking loop for
entry `e`: `(uint32_t)length` rounded up to pages (with the 32-bit wrap of
`len + PAGE_SIZE - 1`), clipped by the `start_page + i < total_pages`
condition. -/
def entry_mark_count (e : multiboot_mmap_entry) (total : Nat) : Nat :=
  min (((e.length % U32) + PAGE_SIZE - 1) % U32 / PAGE_SIZE) (total - e.base_addr / PAGE_SIZE)

/-- Whether the second pass of `physical_memory_init` marks entry `e`
(below 4 GiB and not of type available). -/
def entry_reserved (e : multiboot_mmap_entry) : Prop :=
  e.base_addr < U32 ∧ e.mtype ≠ MULTIBOOT_MEMORY_AVAILABLE

instance (e : multiboot_mmap_entry) : Decidable (entry_reserved e) := by
  unfold entry_reserved; infer_instance

/-- Function `physical_memory_init`, parameterised by the multiboot memory map and
by `(uint32_t)&kernel_end` (the bitmap is placed just after the kernel).
The system-halt branch for a missing memory map is outside the model (the
caller never reaches the allocator in that case). -/
def physical_memory_init (mmap : List multiboot_mmap_entry) (kernel_end_addr : Nat) :
    physical_allocator_t :=
  let highest := mmap_highest mmap
  let total := highest / PAGE_SIZE
  let bitmap_size := (total + 31) / 32
  let bitmap_addr := (kernel_end_addr + 4 - 1) &&& 0xFFFFFFFC
  let bm0 : List Bool := List.replicate total false
  -- mark every reserved region's pages, unconditionally counting each
  let r1 := mmap.foldl
    (fun (acc : List Bool × Nat) e =>
      if entry_reserved e then
        mark_region acc.1 acc.2 (e.base_addr / PAGE_SIZE) (entry_mark_count e total)
      else acc)
    (bm0, 0)
  -- mark the kernel image plus bitmap, conditionally
  let kernel_start_page := 0x100000 / PAGE_SIZE
  let kernel_end_page := ((bitmap_addr + bitmap_size * 4) % U32 + PAGE_SIZE - 1) % U32 / PAGE_SIZE
  let r2 := mark_range_cond r1.1 r1.2 kernel_start_page
    (min kernel_end_page total - kernel_start_page)
  -- mark the first 1 MiB, conditionally
  let first_mb_pages := 0x100000 / PAGE_SIZE
  let r3 := mark_range_cond r2.1 r2.2 0 (min first_mb_pages total - 0)
  { bitmap := r3.1
    total_pages := total
    used_pages := r3.2
    first_free_page := first_mb_pages }

/-- An `allocate_frame` / `free_frame` call at the frame-allocator API. -/
inductive PhysOp where
  | alloc : PhysOp
  | free (addr : Nat) : PhysOp
deriving DecidableEq

def runPhysOp (s : physical_allocator_t) : PhysOp → physical_allocator_t
  | .alloc => (allocate_physical_page s).2
  | .free a => free_physical_page s (a % U32)

def runPhysOps (s : physical_allocator_t) (ops : List PhysOp) : physical_allocator_t :=
  ops.foldl runPhysOp s

/-! ## Paging manager -/

/-- Pointwise update of a 1024-entry table modelled as a function. -/
def upd1 (f : Nat → Nat) (i v : Nat) : Nat → Nat := fun j => if j = i then v else f j

/-- Pointwise update of the `kernel_tables` array of tables. -/
def upd2 (f : Nat → Nat → Nat) (i : Nat) (g : Nat → Nat) : Nat → Nat → Nat :=
  fun j => if j = i then g else f j

/-- Function `map_page(virtual_addr, physical_addr, flags)`: truncates both
addresses to page boundaries, lazily allocates (and zeroes) a page table
when the directory slot is empty — silently dropping the mapping when that
frame allocation fails — and writes the leaf entry `physical | flags`.
The `invlpg` TLB flush has no software-visible state. -/
def map_page (s : KernelState) (virtual_addr physical_addr flags : Nat) : KernelState :=
  let v := virtual_addr &&& PAGE_ALIGN_MASK
  let p := physical_addr &&& PAGE_ALIGN_MASK
  let pd_index := v >>> 22
  let pt_index := (v >>> 12) &&& 0x3FF
  if s.paging.directory pd_index &&& PAGE_PRESENT = 0 then
    let r := allocate_physical_page s.phys
    if r.1 = 0 then { s with phys := r.2 }
    else
      { s with
          phys := r.2
          paging :=
            { directory := upd1 s.paging.directory pd_index
                (r.1 ||| PAGE_PRESENT ||| PAGE_WRITABLE ||| (flags &&& PAGE_USER))
              ktables := upd2 s.paging.ktables pd_index
                (upd1 (fun _ => 0) pt_index (p ||| flags)) } }
  else
    { s with
        paging :=
          { s.paging with
              ktables := upd2 s.paging.ktables pd_index
                (upd1 (s.paging.ktables pd_index) pt_index (p ||| flags)) } }

/-- Function `unmap_page(virtual_addr)`: clears the leaf entry when the containing
region has a page table at all; never reclaims the table frame. -/
def unmap_page (s : KernelState) (virtual_addr : Nat) : KernelState :=
  let v := virtual_addr &&& PAGE_ALIGN_MASK
  let pd_index := v >>> 22
  let pt_index := (v >>> 12) &&& 0x3FF
  if s.paging.directory pd_index &&& PAGE_PRESENT = 0 then s
  else
    { s with
        paging :=
          { s.paging with
              ktables := upd2 s.paging.ktables pd_index
                (upd1 (s.paging.ktables pd_index) pt_index 0) } }

/-- Function `get_physical_address(virtual_addr)`: walks directory → table → leaf,
returning 0 (`NONE`) when either level is absent.  The argument is a
`uint32_t`, hence the `% U32`. -/
def get_physical_address (s : KernelState) (virtual_addr : Nat) : Nat :=
  let va := virtual_addr % U32
  let pd_index := va >>> 22
  let pt_index := (va >>> 12) &&& 0x3FF
  let offset := va &&& PAGE_OFFSET_MASK
  if s.paging.directory pd_index &&& PAGE_PRESENT = 0 then 0
  else if s.paging.ktables pd_index pt_index &&& PAGE_PRESENT = 0 then 0
  else (s.paging.ktables pd_index pt_index &&& PAGE_ALIGN_MASK) + offset

/-! ## Heap allocator -/

/-- Computes `(size + 3) & ~3` on a `size_t`: round up to a 4-byte boundary.  The
mask keeps only bits 2..31, so the 32-bit truncation of the C arithmetic
is built in. -/
def cAlign4 (n : Nat) : Nat := (n + 3) &&& 0xFFFFFFFC

/-- The `total_size = size + sizeof(heap_block_t)` a `kmalloc(size)` call
searches for, after 4-byte rounding (`size_t` arithmetic, hence `% U32`). -/
def kmalloc_total (size : Nat) : Nat := (cAlign4 size + sizeof_heap_block) % U32

/-- Function `heap_split_block(block, size)`: when the block is large enough to
leave a viable remainder (`size + sizeof(heap_block_t) + 16`), shrink it
to `size` and return the new free remainder block written at
`(uint32_t)block + size`; otherwise leave the block alone.  (Under the
heap invariant all addresses and sizes stay below 2^32, so the `Nat`
additions agree with the C `uint32_t` additions.) -/
def heap_split_block (b : heap_block) (sz : Nat) : heap_block × Option heap_block :=
  if b.bsize < sz + sizeof_heap_block + 16 then (b, none)
  else
    ({ b with bsize := sz },
     some { addr := b.addr + sz, magic := HEAP_BLOCK_MAGIC, bsize := b.bsize - sz,
            is_free := true })

/-- Result of the first-fit walk inside `kmalloc`. -/
inductive WalkResult where
  | corrupt : WalkResult
  | nofit : WalkResult
  | found (blocks : List heap_block) (addr : Nat) : WalkResult
deriving DecidableEq

/-- The `while (current)` walk of `kmalloc`: abort on a bad magic number,
take the first free block whose size covers `total`, split it, mark it
allocated and return the payload address `(uint32_t)current +
sizeof(heap_block_t)`; report `nofit` when the list is exhausted. -/
def kmalloc_walk (total : Nat) : List heap_block → WalkResult
  | [] => .nofit
  | b :: bs =>
      if b.magic ≠ HEAP_BLOCK_MAGIC then .corrupt
      else if b.is_free = true ∧ total ≤ b.bsize then
        let r := heap_split_block b total
        match r.2 with
        | none => .found ({ r.1 with is_free := false } :: bs) (b.addr + sizeof_heap_block)
        | some c => .found ({ r.1 with is_free := false } :: c :: bs) (b.addr + sizeof_heap_block)
      else
        match kmalloc_walk total bs with
        | .corrupt => .corrupt
        | .nofit => .nofit
        | .found bs' a => .found (b :: bs') a

/-- The rollback loop of `heap_expand` when a frame allocation fails
mid-growth: for each already-acquired page, look up its frame, unmap it
and free the frame. -/
def heap_expand_rollback (s : KernelState) (base : Nat) (count : Nat) : KernelState :=
  (List.range count).foldl
    (fun st j =>
      let virt := base + j * PAGE_SIZE
      let phys_addr := get_physical_address st virt
      let st' := unmap_page st virt
      { st' with phys := free_physical_page st'.phys phys_addr })
    s

/-- The frame-acquisition loop of `heap_expand`: allocate and map
`pages_needed` frames at the end of the arena, rolling back on failure.
`i` counts the pages already done, `k` the pages still to do. -/
def heap_expand_alloc (base : Nat) : KernelState → Nat → Nat → Bool × KernelState
  | s, _, 0 => (true, s)
  | s, i, k + 1 =>
      let r := allocate_physical_page s.phys
      if r.1 = 0 then (false, heap_expand_rollback { s with phys := r.2 } base i)
      else
        heap_expand_alloc base
          (map_page { s with phys := r.2 } (base + i * PAGE_SIZE) r.1
            (PAGE_PRESENT ||| PAGE_WRITABLE))
          (i + 1) k

/-- The number of bytes `heap_expand(min_increase)` actually adds:
`((min_increase + PAGE_SIZE - 1) / PAGE_SIZE) * PAGE_SIZE` in `size_t`
arithmetic (the addition wraps at 2^32). -/
def heap_growth (min_increase : Nat) : Nat :=
  (min_increase + PAGE_SIZE - 1) % U32 / PAGE_SIZE * PAGE_SIZE

/-- After a successful growth, either extend the last block (when free) or
append a brand-new free block at the old arena end.  When the list is
empty (`heap.first_block == NULL`, unreachable after a successful init)
the C code writes an orphan header that nothing links to, so the list is
unchanged. -/
def extend_or_append (blocks : List heap_block) (end_addr increase : Nat) : List heap_block :=
  match blocks.getLast? with
  | none => blocks
  | some last =>
      if last.is_free then
        blocks.dropLast ++ [{ last with bsize := last.bsize + increase }]
      else
        blocks ++ [{ addr := end_addr, magic := HEAP_BLOCK_MAGIC, bsize := increase,
                     is_free := true }]

/-- Function `heap_expand(min_increase)`: fail when not initialized or when growing
past `HEAP_MAX_SIZE`; otherwise acquire and map the frames (all-or-nothing)
and extend the block list and arena bounds.  The bound check
`heap.size + increase > HEAP_MAX_SIZE` is 32-bit `size_t` arithmetic, so
the sum wraps at 2^32 — for growth requests of nearly 4 GiB the check
passes even though the true sum is far past the maximum. -/
def heap_expand (s : KernelState) (min_increase : Nat) : Bool × KernelState :=
  if s.heap.initialized = false then (false, s)
  else
    let increase := heap_growth min_increase
    let pages_needed := increase / PAGE_SIZE
    if HEAP_MAX_SIZE < (s.heap.hsize + increase) % U32 then (false, s)
    else
      let r := heap_expand_alloc s.heap.end_addr s 0 pages_needed
      if r.1 = false then (false, r.2)
      else
        (true,
         { r.2 with
            heap :=
              { r.2.heap with
                  first_block := extend_or_append r.2.heap.first_block r.2.heap.end_addr increase
                  end_addr := r.2.heap.end_addr + increase
                  hsize := r.2.heap.hsize + increase } })

/-- Function `kmalloc(size)` with explicit fuel for the `expand`-and-retry
recursion (`return kmalloc(size)` after a successful `heap_expand`).
Every successful expansion adds at least one page while `heap.size` stays
below `HEAP_MAX_SIZE = 4096` pages — except for the degenerate
`increase == 0` overflow case, in which the C recursion never terminates;
there the fuel runs out with the heap state unchanged. -/
def kmalloc_fueled : Nat → KernelState → Nat → Option Nat × KernelState
  | 0, s, _ => (none, s)
  | fuel + 1, s, size =>
      if s.heap.initialized = false ∨ size = 0 then (none, s)
      else
        let total_size := kmalloc_total size
        match kmalloc_walk total_size s.heap.first_block with
        | .corrupt => (none, s)
        | .found blocks' a =>
            (some a, { s with heap := { s.heap with first_block := blocks' } })
        | .nofit =>
            let r := heap_expand s total_size
            if r.1 = false then (none, r.2)
            else kmalloc_fueled fuel r.2 size

def kmalloc (s : KernelState) (size : Nat) : Option Nat × KernelState :=
  kmalloc_fueled (HEAP_MAX_SIZE / PAGE_SIZE + 1) s size

/-- Locate the block whose header sits at address `target`, splitting the
list into the blocks before it, the block itself, and the blocks after. -/
def find_block_split (target : Nat) :
    List heap_block → Option (List heap_block × heap_block × List heap_block)
  | [] => none
  | b :: bs =>
      if b.addr = target then some ([], b, bs)
      else
        match find_block_split target bs with
        | none => none
        | some r => some (b :: r.1, r.2.1, r.2.2)

/-- The forward half of `heap_coalesce`: absorb the maximal run of free
blocks immediately following `b` (their magic is cleared as they leave the
list). -/
def heap_coalesce_forward (b : heap_block) : List heap_block → heap_block × List heap_block
  | [] => (b, [])
  | c :: cs =>
      if c.is_free then heap_coalesce_forward { b with bsize := b.bsize + c.bsize } cs
      else (b, c :: cs)

/-- Function `heap_coalesce(block)` acting on the list split at `block`: nothing
when the block is not free; otherwise merge forward through every free
successor, then merge backward into a free predecessor once. -/
def heap_coalesce (pre : List heap_block) (b : heap_block) (post : List heap_block) :
    List heap_block :=
  if b.is_free = false then pre ++ b :: post
  else
    let r := heap_coalesce_forward b post
    match pre.getLast? with
    | some p =>
        if p.is_free then pre.dropLast ++ { p with bsize := p.bsize + r.1.bsize } :: r.2
        else pre ++ r.1 :: r.2
    | none => pre ++ r.1 :: r.2

/-- Function `kfree(ptr)`: recover the header at `ptr - sizeof(heap_block_t)`;
no-op (with a diagnostic) on a bad magic or an already-free block;
otherwise mark free and coalesce.  A pointer whose header address is not a
live block in the list is rejected by the C magic check and modelled as a
no-op. -/
def kfree (s : KernelState) (ptr : Nat) : KernelState :=
  if ptr = 0 ∨ s.heap.initialized = false then s
  else
    match find_block_split (ptr - sizeof_heap_block) s.heap.first_block with
    | none => s
    | some r =>
        if r.2.1.magic ≠ HEAP_BLOCK_MAGIC then s
        else if r.2.1.is_free = true then s
        else
          { s with
              heap :=
                { s.heap with
                    first_block := heap_coalesce r.1 { r.2.1 with is_free := true } r.2.2 } }

/-- Function `krealloc(ptr, size)`: `NULL` behaves as `kmalloc`, `size == 0` as
`kfree`; when the current payload capacity
`block->size - sizeof(heap_block_t)` (a `uint32_t` subtraction, hence the
`+ (U32 - 17) % U32` form) already covers the rounded size, the pointer is
returned unchanged; otherwise allocate-copy-free (the byte copy itself has
no metadata effect and is outside the model). -/
def krealloc (s : KernelState) (ptr size : Nat) : Option Nat × KernelState :=
  if ptr = 0 then kmalloc s size
  else if size = 0 then (none, kfree s ptr)
  else
    match find_block_split (ptr - sizeof_heap_block) s.heap.first_block with
    | none => (none, s)
    | some r =>
        if r.2.1.magic ≠ HEAP_BLOCK_MAGIC then (none, s)
        else
          let current_data_size := (r.2.1.bsize + (U32 - sizeof_heap_block)) % U32
          let aligned_size := cAlign4 size
          if aligned_size ≤ current_data_size then (some ptr, s)
          else
            match kmalloc s size with
            | (none, s') => (none, s')
            | (some new_ptr, s') => (some new_ptr, kfree s' ptr)

/-- The page-mapping loop of `heap_init`: allocate and map the
`HEAP_INITIAL_SIZE / PAGE_SIZE` initial frames, aborting (heap unusable,
`initialized` stays false) when a frame allocation fails. -/
def heap_init_alloc (base : Nat) : KernelState → Nat → Nat → Bool × KernelState
  | s, _, 0 => (true, s)
  | s, i, k + 1 =>
      let r := allocate_physical_page s.phys
      if r.1 = 0 then (false, { s with phys := r.2 })
      else
        heap_init_alloc base
          (map_page { s with phys := r.2 } (base + i * PAGE_SIZE) r.1
            (PAGE_PRESENT ||| PAGE_WRITABLE))
          (i + 1) k

/-- Function `heap_init()`: reset the heap record, map the initial arena, then
write one free block spanning the whole arena and set `initialized`. -/
def heap_init (s : KernelState) : KernelState :=
  let s0 : KernelState :=
    { s with
        heap :=
          { start_addr := HEAP_START_ADDR, end_addr := HEAP_START_ADDR, hsize := 0,
            first_block := [], initialized := false } }
  let r := heap_init_alloc HEAP_START_ADDR s0 0 (HEAP_INITIAL_SIZE / PAGE_SIZE)
  if r.1 = false then r.2
  else
    { r.2 with
        heap :=
          { start_addr := HEAP_START_ADDR
            end_addr := HEAP_START_ADDR + HEAP_INITIAL_SIZE
            hsize := HEAP_INITIAL_SIZE
            first_block :=
              [{ addr := HEAP_START_ADDR, magic := HEAP_BLOCK_MAGIC,
                 bsize := HEAP_INITIAL_SIZE, is_free := true }]
            initialized := true } }

/-- A heap-API call: `kmalloc`, `kfree` or `krealloc` (arguments are
truncated to `uint32_t` / `size_t` as at the C call boundary). -/
inductive HeapOp where
  | malloc (size : Nat) : HeapOp
  | free (ptr : Nat) : HeapOp
  | realloc (ptr size : Nat) : HeapOp
deriving DecidableEq

def runHeapOp (s : KernelState) : HeapOp → KernelState
  | .malloc n => (kmalloc s (n % U32)).2
  | .free p => kfree s (p % U32)
  | .realloc p n => (krealloc s (p % U32) (n % U32)).2

def runHeapOps (s : KernelState) (ops : List HeapOp) : KernelState :=
  ops.foldl runHeapOp s

/-! ## Frame allocator: invariants and helper lemmas -/

/-- Number of set bits of the frame bitmap. -/
def popcount : List Bool → Nat
  | [] => 0
  | b :: bs => (if b then 1 else 0) + popcount bs

/-- Number of clear bits of the frame bitmap (the free frames). -/
def zerocount : List Bool → Nat
  | [] => 0
  | b :: bs => (if b then 0 else 1) + zerocount bs

/-- The bitmap has exactly one bit per frame. -/
def phys_wf (s : physical_allocator_t) : Prop := s.bitmap.length = s.total_pages

/-- Every frame below the `first_free_page` hint is marked allocated, so
the scan of `allocate_physical_page` never skips a free frame. -/
def hint_inv (s : physical_allocator_t) : Prop :=
  ∀ p < s.first_free_page, p < s.total_pages → bitGet s.bitmap p = true

/-- Field `used_pages` counts the set bits of the bitmap. -/
def count_inv (s : physical_allocator_t) : Prop := s.used_pages = popcount s.bitmap

theorem popcount_add_zerocount (bm : List Bool) : popcount bm + zerocount bm = bm.length := by
  induction bm with
  | nil => rfl
  | cons b bs ih => cases b <;> simp [popcount, zerocount] <;> omega

theorem bitGet_set_self (bm : List Bool) (p : Nat) (b : Bool) (h : p < bm.length) :
    bitGet (bm.set p b) p = b := by
  induction bm generalizing p with
  | nil => simp at h
  | cons x xs ih =>
      cases p with
      | zero => rfl
      | succ q => simpa [bitGet, List.getD] using ih q (by simpa using h)

theorem bitGet_set_ne (bm : List Bool) (p q : Nat) (b : Bool) (h : q ≠ p) :
    bitGet (bm.set p b) q = bitGet bm q := by
  induction bm generalizing p q with
  | nil => rfl
  | cons x xs ih =>
      cases p with
      | zero => cases q with
          | zero => exact absurd rfl h
          | succ r => rfl
      | succ p' =>
          cases q with
          | zero => rfl
          | succ r =>
              simpa [bitGet, List.getD] using ih p' r (by omega)

theorem popcount_set_true (bm : List Bool) (p : Nat) (h : p < bm.length)
    (hf : bitGet bm p = false) : popcount (bm.set p true) = popcount bm + 1 := by
  induction bm generalizing p with
  | nil => simp at h
  | cons x xs ih =>
      cases p with
      | zero =>
          cases x with
          | false => simp [popcount, Nat.add_comm]
          | true => simp [bitGet, List.getD] at hf
      | succ q =>
          have := ih q (by simpa using h) (by simpa [bitGet, List.getD] using hf)
          cases x <;> simp [popcount, this] <;> omega

theorem popcount_set_false (bm : List Bool) (p : Nat) (h : p < bm.length)
    (ht : bitGet bm p = true) : popcount bm = popcount (bm.set p false) + 1 := by
  induction bm generalizing p with
  | nil => simp at h
  | cons x xs ih =>
      cases p with
      | zero =>
          cases x with
          | false => simp [bitGet, List.getD] at ht
          | true => simp [popcount, Nat.add_comm]
      | succ q =>
          have := ih q (by simpa using h) (by simpa [bitGet, List.getD] using ht)
          cases x <;> simp [popcount, this] <;> omega

theorem scan_free_aux_some (bm : List Bool) (k page p : Nat)
    (h : scan_free_aux bm k page = some p) :
    page ≤ p ∧ p < page + k ∧ bitGet bm p = false ∧
      ∀ q, page ≤ q → q < p → bitGet bm q = true := by
  induction k generalizing page with
  | zero => simp [scan_free_aux] at h
  | succ k ih =>
      by_cases hb : bitGet bm page = true
      · have h' : scan_free_aux bm k (page + 1) = some p := by
          simpa [scan_free_aux, hb] using h
        obtain ⟨h1, h2, h3, h4⟩ := ih (page + 1) h'
        refine ⟨by omega, by omega, h3, fun q hq1 hq2 => ?_⟩
        rcases Nat.eq_or_lt_of_le hq1 with rfl | hlt
        · exact hb
        · exact h4 q hlt hq2
      · have hb' : bitGet bm page = false := by simpa using hb
        have : page = p := by simpa [scan_free_aux, hb'] using h
        subst this
        exact ⟨le_rfl, by omega, hb', fun q hq1 hq2 => by omega⟩

theorem scan_free_aux_none (bm : List Bool) (k page : Nat)
    (h : scan_free_aux bm k page = none) :
    ∀ q, page ≤ q → q < page + k → bitGet bm q = true := by
  induction k generalizing page with
  | zero => intro q h1 h2; omega
  | succ k ih =>
      by_cases hb : bitGet bm page = true
      · have h' : scan_free_aux bm k (page + 1) = none := by
          simpa [scan_free_aux, hb] using h
        intro q hq1 hq2
        rcases Nat.eq_or_lt_of_le hq1 with rfl | hlt
        · exact hb
        · exact ih (page + 1) h' q hlt (by omega)
      · have hb' : bitGet bm page = false := by simpa using hb
        simp [scan_free_aux, hb'] at h

theorem scan_free_some (bm : List Bool) (total page p : Nat)
    (h : scan_free bm total page = some p) :
    page ≤ p ∧ p < total ∧ bitGet bm p = false ∧
      ∀ q, page ≤ q → q < p → bitGet bm q = true := by
  obtain ⟨h1, h2, h3, h4⟩ := scan_free_aux_some bm (total - page) page p h
  exact ⟨h1, by omega, h3, h4⟩

theorem scan_free_none (bm : List Bool) (total page : Nat)
    (h : scan_free bm total page = none) :
    ∀ q, page ≤ q → q < total → bitGet bm q = true := by
  intro q h1 h2
  exact scan_free_aux_none bm (total - page) page h q h1 (by omega)

/-! ### Preservation of the frame-allocator invariants by the operations -/

theorem phys_wf_alloc (s : physical_allocator_t) (h : phys_wf s) :
    phys_wf (allocate_physical_page s).2 := by
  unfold allocate_physical_page
  cases hs : scan_free s.bitmap s.total_pages s.first_free_page with
  | none => exact h
  | some page => simpa [phys_wf] using h

theorem phys_wf_free (s : physical_allocator_t) (a : Nat) (h : phys_wf s) :
    phys_wf (free_physical_page s a) := by
  unfold free_physical_page
  dsimp only
  split
  · exact h
  · split
    · exact h
    · split
      · simpa [phys_wf] using h
      · exact h

theorem hint_inv_alloc (s : physical_allocator_t) (hw : phys_wf s) (h : hint_inv s) :
    hint_inv (allocate_physical_page s).2 := by
  unfold allocate_physical_page
  cases hs : scan_free s.bitmap s.total_pages s.first_free_page with
  | none => exact h
  | some page =>
      obtain ⟨h1, h2, h3, _⟩ := scan_free_some _ _ _ _ hs
      intro q hq hq2
      simp only at hq hq2 ⊢
      by_cases hqp : q = page
      · subst hqp
        exact bitGet_set_self _ _ _ (by rw [hw]; exact h2)
      · rw [bitGet_set_ne _ _ _ _ hqp]
        split at hq
        · rename_i hpage
          exact h q (by omega) hq2
        · exact h q hq hq2

theorem hint_inv_free (s : physical_allocator_t) (a : Nat) (h : hint_inv s) :
    hint_inv (free_physical_page s a) := by
  unfold free_physical_page
  dsimp only
  split
  · exact h
  · split
    · exact h
    · split
      · rename_i hrange hset
        intro q hq hq2
        simp only at hq hq2 ⊢
        split at hq
        · rw [bitGet_set_ne _ _ _ _ (by omega)]
          rename_i hlt
          exact h q (by omega) hq2
        · rw [bitGet_set_ne _ _ _ _ (by omega)]
          exact h q hq hq2
      · exact h

theorem count_inv_alloc (s : physical_allocator_t) (hw : phys_wf s) (h : count_inv s) :
    count_inv (allocate_physical_page s).2 := by
  unfold allocate_physical_page
  cases hs : scan_free s.bitmap s.total_pages s.first_free_page with
  | none => exact h
  | some page =>
      obtain ⟨_, h2, h3, _⟩ := scan_free_some _ _ _ _ hs
      show s.used_pages + 1 = popcount (s.bitmap.set page true)
      rw [popcount_set_true _ _ (by rw [hw]; exact h2) h3, h]

theorem count_inv_free (s : physical_allocator_t) (a : Nat) (hw : phys_wf s)
    (h : count_inv s) : count_inv (free_physical_page s a) := by
  unfold free_physical_page
  dsimp only
  split
  · exact h
  · split
    · exact h
    · split
      · rename_i hrange hset
        show s.used_pages - 1 = popcount (s.bitmap.set (a / PAGE_SIZE) false)
        have := popcount_set_false s.bitmap (a / PAGE_SIZE) (by rw [hw]; omega) hset
        have hc : s.used_pages = popcount s.bitmap := h
        omega
      · exact h

/-- The three invariants bundled, as preserved by every frame operation. -/
def phys_inv (s : physical_allocator_t) : Prop := phys_wf s ∧ hint_inv s ∧ count_inv s

theorem phys_inv_op (s : physical_allocator_t) (op : PhysOp) (h : phys_inv s) :
    phys_inv (runPhysOp s op) := by
  obtain ⟨hw, hh, hc⟩ := h
  cases op with
  | alloc =>
      exact ⟨phys_wf_alloc s hw, hint_inv_alloc s hw hh, count_inv_alloc s hw hc⟩
  | free a =>
      exact ⟨phys_wf_free s _ hw, hint_inv_free s _ hh, count_inv_free s _ hw hc⟩

theorem phys_inv_ops (s : physical_allocator_t) (ops : List PhysOp) (h : phys_inv s) :
    phys_inv (runPhysOps s ops) := by
  induction ops generalizing s with
  | nil => exact h
  | cons op ops ih => exact ih _ (phys_inv_op s op h)

/-! ### physical_memory_init establishes the invariants -/

theorem bitGet_replicate_false (n q : Nat) : bitGet (List.replicate n false) q = false := by
  induction n generalizing q with
  | zero => rfl
  | succ n ih =>
      cases q with
      | zero => rfl
      | succ q => simpa [bitGet, List.getD, List.replicate] using ih q

theorem popcount_replicate_false (n : Nat) : popcount (List.replicate n false) = 0 := by
  induction n with
  | zero => rfl
  | succ n ih => simpa [List.replicate, popcount] using ih

theorem mark_region_length (k : Nat) :
    ∀ bm used page, ((mark_region bm used page k).1).length = bm.length := by
  induction k with
  | zero => intro bm used page; rfl
  | succ k ih =>
      intro bm used page
      simpa [mark_region] using ih (bm.set page true) (used + 1) (page + 1)

theorem mark_region_used (k : Nat) :
    ∀ bm used page, (mark_region bm used page k).2 = used + k := by
  induction k with
  | zero => intro bm used page; rfl
  | succ k ih =>
      intro bm used page
      rw [mark_region, ih]
      omega

theorem mark_region_bitGet (k : Nat) :
    ∀ bm used page, (∀ q, page ≤ q → q < page + k → q < bm.length) →
      ∀ q, bitGet (mark_region bm used page k).1 q =
        (bitGet bm q || decide (page ≤ q ∧ q < page + k)) := by
  induction k with
  | zero => intro bm used page _ q; simp [mark_region]
  | succ k ih =>
      intro bm used page hlen q
      have hrec := ih (bm.set page true) (used + 1) (page + 1)
        (fun q hq1 hq2 => by
          rw [List.length_set]; exact hlen q (by omega) (by omega)) q
      rw [mark_region, hrec]
      by_cases hq : q = page
      · subst hq
        rw [bitGet_set_self _ _ _ (hlen q le_rfl (by omega))]
        simp
      · rw [bitGet_set_ne _ _ _ _ hq]
        by_cases h1 : page ≤ q ∧ q < page + (k + 1)
        · have h2 : page + 1 ≤ q ∧ q < page + 1 + k := by omega
          simp [h1, h2]
        · have h2 : ¬(page + 1 ≤ q ∧ q < page + 1 + k) := by omega
          simp [h1, h2]

theorem mark_region_popcount (k : Nat) :
    ∀ bm used page, (∀ q, page ≤ q → q < page + k → q < bm.length) →
      (∀ q, page ≤ q → q < page + k → bitGet bm q = false) →
      popcount (mark_region bm used page k).1 = popcount bm + k := by
  induction k with
  | zero => intro bm used page _ _; rfl
  | succ k ih =>
      intro bm used page hlen hfresh
      rw [mark_region]
      rw [ih (bm.set page true) (used + 1) (page + 1)
        (fun q hq1 hq2 => by rw [List.length_set]; exact hlen q (by omega) (by omega))
        (fun q hq1 hq2 => by
          rw [bitGet_set_ne _ _ _ _ (by omega)]; exact hfresh q (by omega) (by omega))]
      rw [popcount_set_true bm page (hlen page le_rfl (by omega))
        (hfresh page le_rfl (by omega))]
      omega

theorem mark_page_cond_length (bm : List Bool) (used p : Nat) :
    (mark_page_cond bm used p).1.length = bm.length := by
  unfold mark_page_cond
  split <;> simp

theorem mark_page_cond_count (bm : List Bool) (used p : Nat) (h : p < bm.length)
    (hc : used = popcount bm) : (mark_page_cond bm used p).2 = popcount (mark_page_cond bm used p).1 := by
  unfold mark_page_cond
  split
  · exact hc
  · rename_i hb
    simp only
    rw [popcount_set_true bm p h (by simpa using hb), hc]

theorem mark_page_cond_mono (bm : List Bool) (used p q : Nat)
    (h : bitGet bm q = true) : bitGet (mark_page_cond bm used p).1 q = true := by
  unfold mark_page_cond
  split
  · exact h
  · simp only
    by_cases hq : q = p
    · subst hq
      rename_i hb
      exact absurd h hb
    · rw [bitGet_set_ne _ _ _ _ hq]; exact h

theorem mark_page_cond_self (bm : List Bool) (used p : Nat) (h : p < bm.length) :
    bitGet (mark_page_cond bm used p).1 p = true := by
  unfold mark_page_cond
  split
  · assumption
  · simpa using bitGet_set_self bm p true h

theorem mark_range_cond_length (k : Nat) :
    ∀ bm used page, (mark_range_cond bm used page k).1.length = bm.length := by
  induction k with
  | zero => intro bm used page; rfl
  | succ k ih =>
      intro bm used page
      rw [mark_range_cond]
      rw [ih, mark_page_cond_length]

theorem mark_range_cond_count (k : Nat) :
    ∀ bm used page, (∀ q, page ≤ q → q < page + k → q < bm.length) →
      used = popcount bm →
      (mark_range_cond bm used page k).2 = popcount (mark_range_cond bm used page k).1 := by
  induction k with
  | zero => intro bm used page _ hc; exact hc
  | succ k ih =>
      intro bm used page hlen hc
      rw [mark_range_cond]
      exact ih _ _ _
        (fun q hq1 hq2 => by
          rw [mark_page_cond_length]; exact hlen q (by omega) (by omega))
        (mark_page_cond_count bm used page (hlen page le_rfl (by omega)) hc)

theorem mark_range_cond_mono (k : Nat) :
    ∀ bm used page q, bitGet bm q = true →
      bitGet (mark_range_cond bm used page k).1 q = true := by
  induction k with
  | zero => intro bm used page q h; exact h
  | succ k ih =>
      intro bm used page q h
      rw [mark_range_cond]
      exact ih _ _ _ _ (mark_page_cond_mono bm used page q h)

theorem mark_range_cond_covers (k : Nat) :
    ∀ bm used page, (∀ q, page ≤ q → q < page + k → q < bm.length) →
      ∀ q, page ≤ q → q < page + k → bitGet (mark_range_cond bm used page k).1 q = true := by
  induction k with
  | zero => intro bm used page _ q h1 h2; omega
  | succ k ih =>
      intro bm used page hlen q h1 h2
      rw [mark_range_cond]
      by_cases hq : q = page
      · rw [hq]
        exact mark_range_cond_mono k _ _ _ _
          (mark_page_cond_self bm used page (hlen page le_rfl (by omega)))
      · exact ih _ _ _
          (fun r hr1 hr2 => by
            rw [mark_page_cond_length]; exact hlen r (by omega) (by omega))
          q (by omega) (by omega)

/-- The pages marked for one memory-map entry in the reserved-region pass. -/
def entry_pages (e : multiboot_mmap_entry) (total : Nat) : List Nat :=
  if entry_reserved e then
    (List.range (entry_mark_count e total)).map (fun i => e.base_addr / PAGE_SIZE + i)
  else []

/-- All pages marked in the reserved-region pass, in processing order. -/
def reserved_pages (mmap : List multiboot_mmap_entry) (total : Nat) : List Nat :=
  match mmap with
  | [] => []
  | e :: rest => entry_pages e total ++ reserved_pages rest total

theorem mem_entry_pages (e : multiboot_mmap_entry) (total q : Nat) :
    q ∈ entry_pages e total ↔
      entry_reserved e ∧ e.base_addr / PAGE_SIZE ≤ q ∧
        q < e.base_addr / PAGE_SIZE + entry_mark_count e total := by
  unfold entry_pages
  split
  · rename_i hres
    simp only [List.mem_map, List.mem_range]
    constructor
    · rintro ⟨i, hi, rfl⟩
      exact ⟨hres, by omega, by omega⟩
    · rintro ⟨-, h1, h2⟩
      exact ⟨q - e.base_addr / PAGE_SIZE, by omega, by omega⟩
  · rename_i hres
    simp [hres]

/-- The reserved-region pass of `physical_memory_init`, as it appears in
the definition. -/
theorem phaseA_length (total : Nat) (mmap : List multiboot_mmap_entry) :
    ∀ bm used,
      ((mmap.foldl
        (fun (acc : List Bool × Nat) e =>
          if entry_reserved e then
            mark_region acc.1 acc.2 (e.base_addr / PAGE_SIZE) (entry_mark_count e total)
          else acc)
        (bm, used)).1).length = bm.length := by
  induction mmap with
  | nil => intro bm used; rfl
  | cons e rest ih =>
      intro bm used
      simp only [List.foldl_cons]
      split
      · have := ih (mark_region bm used (e.base_addr / PAGE_SIZE) (entry_mark_count e total)).1
          (mark_region bm used (e.base_addr / PAGE_SIZE) (entry_mark_count e total)).2
        rw [show (mark_region bm used (e.base_addr / PAGE_SIZE) (entry_mark_count e total)) =
          ((mark_region bm used (e.base_addr / PAGE_SIZE) (entry_mark_count e total)).1,
           (mark_region bm used (e.base_addr / PAGE_SIZE) (entry_mark_count e total)).2) from rfl]
        rw [this, mark_region_length]
      · exact ih bm used

theorem phaseA_count (total : Nat) (mmap : List multiboot_mmap_entry) :
    ∀ bm used,
      bm.length = total →
      used = popcount bm →
      (∀ q ∈ reserved_pages mmap total, bitGet bm q = false) →
      (reserved_pages mmap total).Nodup →
      (mmap.foldl
        (fun (acc : List Bool × Nat) e =>
          if entry_reserved e then
            mark_region acc.1 acc.2 (e.base_addr / PAGE_SIZE) (entry_mark_count e total)
          else acc)
        (bm, used)).2 =
      popcount
        ((mmap.foldl
          (fun (acc : List Bool × Nat) e =>
            if entry_reserved e then
              mark_region acc.1 acc.2 (e.base_addr / PAGE_SIZE) (entry_mark_count e total)
            else acc)
          (bm, used)).1) := by
  induction mmap with
  | nil => intro bm used _ hc _ _; exact hc
  | cons e rest ih =>
      intro bm used hlen hc hfresh hnodup
      have hnodup' : (entry_pages e total).Nodup ∧ (reserved_pages rest total).Nodup ∧
          (entry_pages e total).Disjoint (reserved_pages rest total) := by
        simpa [reserved_pages, List.nodup_append] using hnodup
      simp only [List.foldl_cons]
      split
      · rename_i hres
        set start := e.base_addr / PAGE_SIZE with hstart
        set cnt := entry_mark_count e total with hcnt
        -- pages of this entry are in range (when there are any at all)
        have hbound : ∀ q, start ≤ q → q < start + cnt → q < bm.length := by
          intro q hq1 hq2
          have : cnt ≤ total - start := by
            rw [hcnt]; exact Nat.min_le_right _ _
          rw [hlen]; omega
        have hfresh_e : ∀ q, start ≤ q → q < start + cnt → bitGet bm q = false := by
          intro q hq1 hq2
          exact hfresh q (by
            simp only [reserved_pages, List.mem_append]
            exact Or.inl ((mem_entry_pages e total q).2 ⟨hres, hq1, hq2⟩))
        rw [show (mark_region bm used start cnt) =
          ((mark_region bm used start cnt).1, (mark_region bm used start cnt).2) from rfl]
        refine ih _ _ ?_ ?_ ?_ hnodup'.2.1
        · rw [mark_region_length, hlen]
        · rw [mark_region_used, mark_region_popcount cnt bm used start hbound hfresh_e, hc]
        · intro q hq
          rw [mark_region_bitGet cnt bm used start hbound q]
          have hq_notin : ¬(start ≤ q ∧ q < start + cnt) := by
            intro hcontra
            exact hnodup'.2.2 ((mem_entry_pages e total q).2 ⟨hres, hcontra.1, hcontra.2⟩) hq
          rw [decide_eq_false hq_notin, Bool.or_false]
          exact hfresh q (by simp only [reserved_pages, List.mem_append]; exact Or.inr hq)
      · rename_i hres
        refine ih bm used hlen hc ?_ hnodup'.2.1
        intro q hq
        exact hfresh q (by simp only [reserved_pages, List.mem_append]; exact Or.inr hq)

theorem physical_memory_init_wf (mmap : List multiboot_mmap_entry) (ke : Nat) :
    phys_wf (physical_memory_init mmap ke) := by
  unfold physical_memory_init phys_wf
  dsimp only
  rw [mark_range_cond_length, mark_range_cond_length, phaseA_length, List.length_replicate]

theorem physical_memory_init_hint_inv (mmap : List multiboot_mmap_entry) (ke : Nat) :
    hint_inv (physical_memory_init mmap ke) := by
  have hwf := physical_memory_init_wf mmap ke
  unfold physical_memory_init hint_inv
  unfold physical_memory_init phys_wf at hwf
  dsimp only at hwf ⊢
  intro p hp hp2
  apply mark_range_cond_covers
  · intro q _ hq2
    rw [mark_range_cond_length, phaseA_length, List.length_replicate]
    omega
  · omega
  · omega

theorem physical_memory_init_count_inv (mmap : List multiboot_mmap_entry) (ke : Nat)
    (h : (reserved_pages mmap (mmap_highest mmap / PAGE_SIZE)).Nodup) :
    count_inv (physical_memory_init mmap ke) := by
  have hwf := physical_memory_init_wf mmap ke
  unfold physical_memory_init count_inv
  unfold physical_memory_init phys_wf at hwf
  dsimp only at hwf ⊢
  apply mark_range_cond_count
  · intro q hq1 hq2
    rw [mark_range_cond_length, phaseA_length, List.length_replicate]
    omega
  · apply mark_range_cond_count
    · intro q hq1 hq2
      rw [phaseA_length, List.length_replicate]
      omega
    · apply phaseA_count
      · rw [List.length_replicate]
      · rw [popcount_replicate_false]
      · intro q _
        exact bitGet_replicate_false _ q
      · exact h

theorem wf_hint_ops (s : physical_allocator_t) (ops : List PhysOp)
    (h : phys_wf s ∧ hint_inv s) :
    phys_wf (runPhysOps s ops) ∧ hint_inv (runPhysOps s ops) := by
  induction ops generalizing s with
  | nil => exact h
  | cons op ops ih =>
      refine ih (runPhysOp s op) ?_
      cases op with
      | alloc => exact ⟨phys_wf_alloc s h.1, hint_inv_alloc s h.1 h.2⟩
      | free a => exact ⟨phys_wf_free s _ h.1, hint_inv_free s _ h.2⟩

theorem wf_count_ops (s : physical_allocator_t) (ops : List PhysOp)
    (h : phys_wf s ∧ count_inv s) :
    phys_wf (runPhysOps s ops) ∧ count_inv (runPhysOps s ops) := by
  induction ops generalizing s with
  | nil => exact h
  | cons op ops ih =>
      refine ih (runPhysOp s op) ?_
      cases op with
      | alloc => exact ⟨phys_wf_alloc s h.1, count_inv_alloc s h.1 h.2⟩
      | free a => exact ⟨phys_wf_free s _ h.1, count_inv_free s _ h.1 h.2⟩

/-! ## Claim C9 -/

/-- C9: in every reachable frame-allocator state (after
`physical_memory_init` and any sequence of `allocate_physical_page` /
`free_physical_page` calls), every frame with index strictly below the
`first_free_page` hint is marked allocated in the bitmap; consequently
every free frame lies at or above the hint, so the scan of
`allocate_physical_page`, which starts at the hint, never skips over a
free frame. -/
theorem C9_hint_never_skips (mmap : List multiboot_mmap_entry) (kernel_end_addr : Nat)
    (ops : List PhysOp) :
    hint_inv (runPhysOps (physical_memory_init mmap kernel_end_addr) ops) ∧
    ∀ p, p < (runPhysOps (physical_memory_init mmap kernel_end_addr) ops).total_pages →
      bitGet (runPhysOps (physical_memory_init mmap kernel_end_addr) ops).bitmap p = false →
      (runPhysOps (physical_memory_init mmap kernel_end_addr) ops).first_free_page ≤ p := by
  have h := wf_hint_ops (physical_memory_init mmap kernel_end_addr) ops
    ⟨physical_memory_init_wf mmap kernel_end_addr,
     physical_memory_init_hint_inv mmap kernel_end_addr⟩
  refine ⟨h.2, fun p hp hfree => ?_⟩
  by_contra hcon
  rw [h.2 p (by omega) hp] at hfree
  simp at hfree

/-! ## Claim C6 -/

/-- C6 counterexample: with a boot memory map whose reserved entries
overlap (two identical reserved records for the first page), the
unconditional `used_pages++` in the reserved-region marking loop of
`physical_memory_init` counts the shared frame twice, so after a
subsequent `allocate_physical_page` call `used_pages` (257) differs from
the number of set bits (256): the claimed conservation invariant is false
as stated. -/
theorem C6_counterexample :
    ¬ ((runPhysOps
          (physical_memory_init
            [⟨0, 0x1000, 2⟩, ⟨0, 0x1000, 2⟩, ⟨0, 0x100000, 1⟩] 0x100000)
          [PhysOp.alloc]).used_pages
        = popcount (runPhysOps
          (physical_memory_init
            [⟨0, 0x1000, 2⟩, ⟨0, 0x1000, 2⟩, ⟨0, 0x100000, 1⟩] 0x100000)
          [PhysOp.alloc]).bitmap) := by
  decide

/-- C6 (amended): provided the reserved entries of the boot memory map
mark pairwise-distinct frames (no overlapping reserved regions — the one
case where `physical_memory_init` double-counts), after initialization
and every sequence of `allocate_physical_page` / `free_physical_page`
operations the `used_pages` counter equals the number of set bits in the
frame bitmap, and together with the clear bits (the free frames) it adds
up to `total_pages`. -/
theorem C6_frame_conservation (mmap : List multiboot_mmap_entry) (kernel_end_addr : Nat)
    (ops : List PhysOp)
    (h : (reserved_pages mmap (mmap_highest mmap / PAGE_SIZE)).Nodup) :
    (runPhysOps (physical_memory_init mmap kernel_end_addr) ops).used_pages
      = popcount (runPhysOps (physical_memory_init mmap kernel_end_addr) ops).bitmap ∧
    (runPhysOps (physical_memory_init mmap kernel_end_addr) ops).used_pages
        + zerocount (runPhysOps (physical_memory_init mmap kernel_end_addr) ops).bitmap
      = (runPhysOps (physical_memory_init mmap kernel_end_addr) ops).total_pages := by
  have hc := wf_count_ops (physical_memory_init mmap kernel_end_addr) ops
    ⟨physical_memory_init_wf mmap kernel_end_addr,
     physical_memory_init_count_inv mmap kernel_end_addr h⟩
  refine ⟨hc.2, ?_⟩
  have h1 := popcount_add_zerocount
    (runPhysOps (physical_memory_init mmap kernel_end_addr) ops).bitmap
  have h2 : (runPhysOps (physical_memory_init mmap kernel_end_addr) ops).bitmap.length
      = (runPhysOps (physical_memory_init mmap kernel_end_addr) ops).total_pages := hc.1
  have h3 : (runPhysOps (physical_memory_init mmap kernel_end_addr) ops).used_pages
      = popcount (runPhysOps (physical_memory_init mmap kernel_end_addr) ops).bitmap := hc.2
  omega

/-- C6 witness: a concrete well-formed memory map (one available MiB, no
reserved entries) on which the amended invariant is instantiated after an
`allocate_frame` call. -/
theorem C6_witness :
    (reserved_pages [(⟨0, 0x100000, 1⟩ : multiboot_mmap_entry)]
        (mmap_highest [(⟨0, 0x100000, 1⟩ : multiboot_mmap_entry)] / PAGE_SIZE)).Nodup ∧
    (runPhysOps (physical_memory_init [(⟨0, 0x100000, 1⟩ : multiboot_mmap_entry)] 0x100000)
        [PhysOp.alloc]).used_pages
      = popcount (runPhysOps
          (physical_memory_init [(⟨0, 0x100000, 1⟩ : multiboot_mmap_entry)] 0x100000)
          [PhysOp.alloc]).bitmap :=
  ⟨by decide,
   (C6_frame_conservation [⟨0, 0x100000, 1⟩] 0x100000 [PhysOp.alloc] (by decide)).1⟩

/-! ## Claim C3 -/

/-- C3: whenever at least one free frame exists (in a state satisfying
the allocator invariants: bitmap length matches `total_pages`, no free
frame below the hint, frame 0 allocated as part of the pre-marked first
MiB, and the physically-forced bound `total_pages ≤ 2^20`),
`allocate_physical_page` returns `index * 4096` for the lowest-indexed
free frame, marks it allocated, and never returns 0 on success; when no
free frame remains it returns 0 (`NONE`). -/
theorem C3_allocate_frame (s : physical_allocator_t)
    (hw : phys_wf s) (hh : hint_inv s)
    (h0 : bitGet s.bitmap 0 = true) (hbound : s.total_pages ≤ 2 ^ 20) :
    ((∃ p, p < s.total_pages ∧ bitGet s.bitmap p = false) →
      ∃ q, q < s.total_pages ∧ bitGet s.bitmap q = false ∧
        (∀ r, r < q → r < s.total_pages → bitGet s.bitmap r = true) ∧
        (allocate_physical_page s).1 = q * PAGE_SIZE ∧
        bitGet (allocate_physical_page s).2.bitmap q = true ∧
        (allocate_physical_page s).1 ≠ 0) ∧
    ((∀ p, p < s.total_pages → bitGet s.bitmap p = true) →
      (allocate_physical_page s).1 = 0) := by
  constructor
  · rintro ⟨p, hp, hpf⟩
    have hphint : s.first_free_page ≤ p := by
      by_contra hcon
      rw [hh p (by omega) hp] at hpf
      simp at hpf
    cases hs : scan_free s.bitmap s.total_pages s.first_free_page with
    | none =>
        have := scan_free_none _ _ _ hs p hphint hp
        rw [this] at hpf
        simp at hpf
    | some q =>
        obtain ⟨h1, h2, h3, h4⟩ := scan_free_some _ _ _ _ hs
        have hq0 : q ≠ 0 := by
          intro hq
          subst hq
          rw [h0] at h3
          simp at h3
        refine ⟨q, h2, h3, ?_, ?_, ?_, ?_⟩
        · intro r hr1 hr2
          by_cases hrh : r < s.first_free_page
          · exact hh r hrh hr2
          · exact h4 r (by omega) hr1
        · unfold allocate_physical_page
          rw [hs]
          show q * PAGE_SIZE % U32 = q * PAGE_SIZE
          apply Nat.mod_eq_of_lt
          unfold PAGE_SIZE U32
          omega
        · unfold allocate_physical_page
          rw [hs]
          exact bitGet_set_self _ _ _ (by rw [hw]; omega)
        · unfold allocate_physical_page
          rw [hs]
          show ¬ q * PAGE_SIZE % U32 = 0
          rw [Nat.mod_eq_of_lt (by unfold PAGE_SIZE U32; omega)]
          unfold PAGE_SIZE
          omega
  · intro hall
    cases hs : scan_free s.bitmap s.total_pages s.first_free_page with
    | none =>
        unfold allocate_physical_page
        rw [hs]
    | some q =>
        obtain ⟨h1, h2, h3, _⟩ := scan_free_some _ _ _ _ hs
        rw [hall q h2] at h3
        simp at h3

/-- C3 witness: a four-frame allocator state with the invariants holding,
frame 2 free, instantiating both the success case and (after allocating
it and exhausting memory) nothing further. -/
theorem C3_witness :
    phys_wf ⟨[true, true, false, true], 4, 3, 2⟩ ∧
    hint_inv ⟨[true, true, false, true], 4, 3, 2⟩ ∧
    (∃ q, q < 4 ∧ bitGet [true, true, false, true] q = false ∧
      (∀ r, r < q → r < 4 → bitGet [true, true, false, true] r = true) ∧
      (allocate_physical_page ⟨[true, true, false, true], 4, 3, 2⟩).1 = q * PAGE_SIZE ∧
      bitGet (allocate_physical_page ⟨[true, true, false, true], 4, 3, 2⟩).2.bitmap q = true ∧
      (allocate_physical_page ⟨[true, true, false, true], 4, 3, 2⟩).1 ≠ 0) := by
  refine ⟨rfl, ?_, ?_⟩
  · intro p hp hp2
    interval_cases p <;> decide
  · refine (C3_allocate_frame ⟨[true, true, false, true], 4, 3, 2⟩ rfl ?_ (by decide)
      (by norm_num)).1 ⟨2, by decide, by decide⟩
    intro p hp hp2
    interval_cases p <;> decide

/-! ## Bit-level arithmetic facts used by the paging proofs -/

theorem testBit_align_mask (i : Nat) :
    (0xFFFFF000 : Nat).testBit i = (decide (12 ≤ i) && decide (i < 32)) := by
  have hm : (0xFFFFF000 : Nat) = (2 ^ 20 - 1) <<< 12 := by decide
  rw [hm, Nat.testBit_shiftLeft, Nat.testBit_two_pow_sub_one]
  by_cases h1 : 12 ≤ i
  · by_cases h2 : i < 32
    · simp [h1, h2]; omega
    · simp [h1, h2]; omega
  · simp [h1]

theorem aligned_testBit_low (v i : Nat) (ha : v % PAGE_SIZE = 0) (hi : i < 12) :
    v.testBit i = false := by
  have h4096 : PAGE_SIZE = 2 ^ 12 := by norm_num [PAGE_SIZE]
  rw [h4096] at ha
  have := Nat.testBit_mod_two_pow v 12 i
  rw [ha, Nat.zero_testBit] at this
  simp [hi] at this
  exact this

theorem big_testBit_false (v i : Nat) (h32 : v < U32) (hi : 32 ≤ i) :
    v.testBit i = false := by
  apply Nat.testBit_lt_two_pow
  calc v < U32 := h32
    _ = 2 ^ 32 := rfl
    _ ≤ 2 ^ i := Nat.pow_le_pow_right (by omega) hi

theorem aligned_and_mask (v : Nat) (h32 : v < U32) (ha : v % PAGE_SIZE = 0) :
    v &&& PAGE_ALIGN_MASK = v := by
  apply Nat.eq_of_testBit_eq
  intro i
  rw [show PAGE_ALIGN_MASK = (0xFFFFF000 : Nat) from rfl]
  rw [Nat.testBit_and, testBit_align_mask]
  by_cases h1 : i < 12
  · rw [aligned_testBit_low v i ha h1]
    simp
  · by_cases h2 : i < 32
    · simp [h2, show 12 ≤ i by omega]
    · rw [big_testBit_false v i h32 (by omega)]
      simp

theorem or_and_mask (p flags : Nat) (hp32 : p < U32) (hpa : p % PAGE_SIZE = 0)
    (hf : flags < PAGE_SIZE) : (p ||| flags) &&& PAGE_ALIGN_MASK = p := by
  apply Nat.eq_of_testBit_eq
  intro i
  rw [show PAGE_ALIGN_MASK = (0xFFFFF000 : Nat) from rfl]
  rw [Nat.testBit_and, Nat.testBit_or, testBit_align_mask]
  by_cases h1 : i < 12
  · rw [aligned_testBit_low p i hpa h1]
    simp [show ¬ 12 ≤ i by omega]
  · have hfb : flags.testBit i = false := by
      apply Nat.testBit_lt_two_pow
      calc flags < PAGE_SIZE := hf
        _ = 2 ^ 12 := by norm_num [PAGE_SIZE]
        _ ≤ 2 ^ i := Nat.pow_le_pow_right (by omega) (by omega)
    by_cases h2 : i < 32
    · simp [hfb, h2, show 12 ≤ i by omega]
    · rw [big_testBit_false p i hp32 (by omega)]
      simp [hfb]

theorem or_present (p flags : Nat) (hpres : flags % 2 = 1) :
    (p ||| flags) &&& PAGE_PRESENT ≠ 0 := by
  rw [show PAGE_PRESENT = (1 : Nat) from rfl, Nat.and_one_is_mod]
  rw [Nat.or_mod_two_eq_one.2 (Or.inr hpres)]
  omega

theorem dir_entry_present (r flags : Nat) :
    (r ||| PAGE_PRESENT ||| PAGE_WRITABLE ||| (flags &&& PAGE_USER)) &&& PAGE_PRESENT ≠ 0 := by
  rw [show PAGE_PRESENT = (1 : Nat) from rfl, Nat.and_one_is_mod]
  rw [Nat.or_mod_two_eq_one.2 (Or.inl (Nat.or_mod_two_eq_one.2 (Or.inl
    (Nat.or_mod_two_eq_one.2 (Or.inr rfl)))))]
  omega

theorem aligned_offset (v : Nat) (ha : v % PAGE_SIZE = 0) :
    v &&& PAGE_OFFSET_MASK = 0 := by
  have : PAGE_OFFSET_MASK = 2 ^ 12 - 1 := by norm_num [PAGE_OFFSET_MASK]
  rw [this, Nat.and_pow_two_sub_one_eq_mod]
  have h4096 : PAGE_SIZE = 2 ^ 12 := by norm_num [PAGE_SIZE]
  rw [h4096] at ha
  exact ha

theorem upd1_self (f : Nat → Nat) (i v : Nat) : upd1 f i v i = v := by
  simp [upd1]

theorem upd2_self (f : Nat → Nat → Nat) (i : Nat) (g : Nat → Nat) : upd2 f i g i = g := by
  simp [upd2]

/-! ## Claim C2 -/

/-- C2 counterexample: the claimed round-trip `map(v, p, flags);
translate(v) == p` is false as stated.  In a state with an empty page
directory and no free physical frame (a single, allocated frame), the lazy
page-table allocation inside `map_page` fails, the mapping request is
silently dropped, and `translate` still returns 0 (`NONE`) rather than
`p = 0x1000`, at the page-aligned input `v = 0x400000`,
`flags = PRESENT|WRITABLE`. -/
theorem C2_counterexample :
    ¬ (get_physical_address
        (map_page
          { phys := ⟨[true], 1, 1, 0⟩,
            paging := ⟨fun _ => 0, fun _ _ => 0⟩,
            heap := ⟨0, 0, 0, [], false⟩ }
          0x400000 0x1000 (PAGE_PRESENT ||| PAGE_WRITABLE))
        0x400000 = 0x1000) := by
  decide

/-- C2 (amended): for every page-aligned 32-bit virtual address `v` and
physical address `p`, and every flag word `flags` that fits in the low 12
bits and has the PRESENT bit set, if the page table for `v`'s region
already exists or a free physical frame is available for its lazy
allocation, then `translate(v)` returns exactly `p` immediately after
`map(v, p, flags)`; and after `unmap(v)` — from any state —
`translate(v)` returns 0 (`NONE`). -/
theorem C2_mapping_round_trip (s : KernelState) (v p flags : Nat)
    (hv32 : v < U32) (hva : v % PAGE_SIZE = 0)
    (hp32 : p < U32) (hpa : p % PAGE_SIZE = 0)
    (hflags : flags < PAGE_SIZE) (hpres : flags % 2 = 1)
    (havail : s.paging.directory ((v &&& PAGE_ALIGN_MASK) >>> 22) &&& PAGE_PRESENT ≠ 0 ∨
      (allocate_physical_page s.phys).1 ≠ 0) :
    get_physical_address (map_page s v p flags) v = p ∧
    (∀ s' : KernelState, get_physical_address (unmap_page s' v) v = 0) := by
  have hmask : v &&& PAGE_ALIGN_MASK = v := aligned_and_mask v hv32 hva
  have hpmask : p &&& PAGE_ALIGN_MASK = p := aligned_and_mask p hp32 hpa
  have hvmod : v % U32 = v := Nat.mod_eq_of_lt hv32
  constructor
  · unfold map_page get_physical_address
    rw [hmask, hvmod]
    by_cases hdir : s.paging.directory (v >>> 22) &&& PAGE_PRESENT = 0
    · -- page table absent: the lazy allocation must succeed
      have halloc : (allocate_physical_page s.phys).1 ≠ 0 := by
        rcases havail with h | h
        · rw [hmask] at h; exact absurd hdir h
        · exact h
      rw [if_pos hdir, if_neg halloc]
      simp only [upd1_self, upd2_self]
      rw [if_neg (dir_entry_present _ flags), hpmask, if_neg (or_present _ flags hpres)]
      rw [or_and_mask p flags hp32 hpa hflags, aligned_offset v hva]
      omega
    · rw [if_neg hdir]
      simp only [upd1_self, upd2_self]
      rw [if_neg hdir, hpmask, if_neg (or_present _ flags hpres)]
      rw [or_and_mask p flags hp32 hpa hflags, aligned_offset v hva]
      omega
  · intro s'
    unfold unmap_page get_physical_address
    rw [hmask, hvmod]
    by_cases hdir : s'.paging.directory (v >>> 22) &&& PAGE_PRESENT = 0
    · rw [if_pos hdir, if_pos hdir]
    · rw [if_neg hdir]
      simp only [upd1_self, upd2_self]
      rw [if_neg hdir]
      have : (0 : Nat) &&& PAGE_PRESENT = 0 := by decide
      rw [if_pos this]

/-- C2 witness: a concrete state with one free frame, on which the
amended round-trip is instantiated at `v = 0x400000`, `p = 0x1000`,
`flags = PRESENT|WRITABLE`. -/
theorem C2_witness :
    ((0x400000 : Nat) < U32 ∧ (0x400000 : Nat) % PAGE_SIZE = 0 ∧
     (0x1000 : Nat) < U32 ∧ (0x1000 : Nat) % PAGE_SIZE = 0 ∧
     (PAGE_PRESENT ||| PAGE_WRITABLE : Nat) < PAGE_SIZE ∧
     (PAGE_PRESENT ||| PAGE_WRITABLE : Nat) % 2 = 1 ∧
     (allocate_physical_page
       (⟨[true, false], 2, 1, 0⟩ : physical_allocator_t)).1 ≠ 0) ∧
    get_physical_address
      (map_page
        { phys := ⟨[true, false], 2, 1, 0⟩,
          paging := ⟨fun _ => 0, fun _ _ => 0⟩,
          heap := ⟨0, 0, 0, [], false⟩ }
        0x400000 0x1000 (PAGE_PRESENT ||| PAGE_WRITABLE))
      0x400000 = 0x1000 :=
  ⟨⟨by decide, by decide, by decide, by decide, by decide, by decide, by decide⟩,
   (C2_mapping_round_trip
      { phys := ⟨[true, false], 2, 1, 0⟩,
        paging := ⟨fun _ => 0, fun _ _ => 0⟩,
        heap := ⟨0, 0, 0, [], false⟩ }
      0x400000 0x1000 (PAGE_PRESENT ||| PAGE_WRITABLE)
      (by decide) (by decide) (by decide) (by decide) (by decide) (by decide)
      (Or.inr (by decide))).1⟩

/-! ## Heap block list: contiguity invariant -/

/-- Walking the `next` chain starting at address `a`: every block header
sits exactly at the end address of its predecessor and the walk ends at
`e`. -/
def chainB : Nat → List heap_block → Nat → Bool
  | a, [], e => a == e
  | a, b :: bs, e => (b.addr == a) && chainB (a + b.bsize) bs e

/-- Every block except possibly the last has positive size; a zero-size
block can only arise as the last block (from the degenerate
`increase == 0` expansion) and is then free. -/
def blocksPosB : List heap_block → Bool
  | [] => true
  | [b] => (b.bsize != 0) || b.is_free
  | b :: c :: bs => (decide (0 < b.bsize)) && blocksPosB (c :: bs)

/-- The inductive well-formedness invariant of the heap block list. -/
def heapWfB (h : heap_info_t) : Bool :=
  (!h.first_block.isEmpty) && chainB h.start_addr h.first_block h.end_addr &&
    blocksPosB h.first_block

/-- The contiguity property exactly as claimed: the walk visits blocks at
strictly increasing addresses, each block starts at the end of its
predecessor, the first block sits at the heap start address and the last
block ends at the heap end address (all of which `chainB` states), and
the list is non-empty. -/
def heap_contiguous (h : heap_info_t) : Prop :=
  h.first_block ≠ [] ∧
  chainB h.start_addr h.first_block h.end_addr = true ∧
  h.first_block.Chain' (fun x y => x.addr < y.addr)

def sizeSum (bs : List heap_block) : Nat := (bs.map (fun b => b.bsize)).sum

theorem chainB_nil_iff (a e : Nat) : chainB a [] e = true ↔ a = e := by
  simp [chainB]

theorem chainB_cons_iff (a e : Nat) (b : heap_block) (bs : List heap_block) :
    chainB a (b :: bs) e = true ↔ b.addr = a ∧ chainB (a + b.bsize) bs e = true := by
  simp [chainB]

theorem chainB_end (bs : List heap_block) :
    ∀ a e, chainB a bs e = true → e = a + sizeSum bs := by
  induction bs with
  | nil =>
      intro a e h
      rw [chainB_nil_iff] at h
      simp [sizeSum, ← h]
  | cons b bs ih =>
      intro a e h
      rw [chainB_cons_iff] at h
      have := ih (a + b.bsize) e h.2
      simp [sizeSum] at this ⊢
      omega

theorem chainB_append_iff (xs ys : List heap_block) :
    ∀ a e, chainB a (xs ++ ys) e = true ↔
      (chainB a xs (a + sizeSum xs) = true ∧ chainB (a + sizeSum xs) ys e = true) := by
  induction xs with
  | nil =>
      intro a e
      simp [sizeSum, chainB_nil_iff]
  | cons x xs ih =>
      intro a e
      simp only [List.cons_append, chainB_cons_iff, ih (a + x.bsize) e]
      constructor
      · rintro ⟨h1, h2, h3⟩
        refine ⟨⟨h1, ?_⟩, ?_⟩
        · have : a + x.bsize + sizeSum xs = a + sizeSum (x :: xs) := by
            simp [sizeSum]; omega
          rw [← this]
          exact h2
        · have : a + x.bsize + sizeSum xs = a + sizeSum (x :: xs) := by
            simp [sizeSum]; omega
          rw [← this]
          exact h3
      · rintro ⟨⟨h1, h2⟩, h3⟩
        have heq : a + x.bsize + sizeSum xs = a + sizeSum (x :: xs) := by
          simp [sizeSum]; omega
        refine ⟨h1, ?_, ?_⟩
        · rw [heq]; exact h2
        · rw [heq]; exact h3

theorem blocksPosB_cons_ne (b : heap_block) (l : List heap_block) (h : l ≠ []) :
    blocksPosB (b :: l) = ((decide (0 < b.bsize)) && blocksPosB l) := by
  cases l with
  | nil => exact absurd rfl h
  | cons c cs => rfl

theorem blocksPosB_singleton_iff (b : heap_block) :
    blocksPosB [b] = true ↔ (b.bsize ≠ 0 ∨ b.is_free = true) := by
  simp [blocksPosB]

theorem blocksPosB_cons_pos (b : heap_block) (l : List heap_block) (hl : l ≠ [])
    (h : blocksPosB (b :: l) = true) : 0 < b.bsize ∧ blocksPosB l = true := by
  rw [blocksPosB_cons_ne b l hl] at h
  simpa using h

theorem blocksPosB_head_pos (b : heap_block) (l : List heap_block)
    (h : blocksPosB (b :: l) = true) (hfree : b.is_free = false) : 0 < b.bsize := by
  cases l with
  | nil =>
      rw [blocksPosB_singleton_iff] at h
      rcases h with h | h
      · omega
      · rw [hfree] at h; exact absurd h (by simp)
  | cons c cs => exact (blocksPosB_cons_pos b _ (by simp) h).1

theorem blocksPosB_append_iff (xs ys : List heap_block) (hys : ys ≠ []) :
    blocksPosB (xs ++ ys) = true ↔
      ((∀ b ∈ xs, 0 < b.bsize) ∧ blocksPosB ys = true) := by
  induction xs with
  | nil => simp
  | cons x xs ih =>
      have hne : xs ++ ys ≠ [] := by
        intro hcon
        rcases List.append_eq_nil.1 hcon with ⟨-, h2⟩
        exact hys h2
      rw [List.cons_append, blocksPosB_cons_ne x _ hne]
      simp only [Bool.and_eq_true, decide_eq_true_eq, ih, List.mem_cons]
      constructor
      · rintro ⟨h1, h2, h3⟩
        exact ⟨fun b hb => by rcases hb with rfl | hb; exact h1; exact h2 b hb, h3⟩
      · rintro ⟨h1, h2⟩
        exact ⟨h1 x (Or.inl rfl), fun b hb => h1 b (Or.inr hb), h2⟩

theorem chain_pos_chain' (bs : List heap_block) :
    ∀ a e, chainB a bs e = true → blocksPosB bs = true →
      bs.Chain' (fun x y => x.addr < y.addr) := by
  induction bs with
  | nil => intro a e _ _; exact List.chain'_nil
  | cons b bs ih =>
      intro a e hc hp
      cases bs with
      | nil => simp
      | cons c cs =>
          rw [chainB_cons_iff] at hc
          obtain ⟨hb, hc2⟩ := hc
          have hc3 := hc2
          rw [chainB_cons_iff] at hc3
          obtain ⟨hpos, hp2⟩ := blocksPosB_cons_pos b _ (by simp) hp
          rw [List.chain'_cons]
          exact ⟨by omega, ih (a + b.bsize) e hc2 hp2⟩

theorem heapWfB_contiguous (h : heap_info_t) (hw : heapWfB h = true) : heap_contiguous h := by
  unfold heapWfB at hw
  simp only [Bool.and_eq_true, Bool.not_eq_true'] at hw
  refine ⟨?_, hw.1.2, chain_pos_chain' _ _ _ hw.1.2 hw.2⟩
  intro hcon
  rw [hcon] at hw
  simp at hw

/-! ## kmalloc walk preserves the invariant -/

theorem cAlign4_mod_four (n : Nat) : cAlign4 n % 4 = 0 := by
  unfold cAlign4
  have h3 : (4 : Nat) = 2 ^ 2 := by norm_num
  have h4 : (3 : Nat) = 2 ^ 2 - 1 := by norm_num
  conv_lhs => rw [h3, ← Nat.and_pow_two_sub_one_eq_mod, Nat.and_assoc]
  have : (0xFFFFFFFC : Nat) &&& (2 ^ 2 - 1) = 0 := by decide
  rw [this, Nat.and_zero]

theorem kmalloc_total_pos (size : Nat) : 0 < kmalloc_total size := by
  have hmod := cAlign4_mod_four size
  unfold kmalloc_total sizeof_heap_block U32
  omega

theorem kmalloc_walk_found_wf (total : Nat) (ht : 0 < total) (blocks : List heap_block) :
    ∀ a e blocks' addr,
      chainB a blocks e = true → blocksPosB blocks = true →
      kmalloc_walk total blocks = .found blocks' addr →
      chainB a blocks' e = true ∧ blocksPosB blocks' = true ∧ blocks' ≠ [] := by
  induction blocks with
  | nil => intro a e blocks' addr _ _ h; simp [kmalloc_walk] at h
  | cons b bs ih =>
      intro a e blocks' addr hc hp hw
      rw [chainB_cons_iff] at hc
      unfold kmalloc_walk at hw
      split at hw
      · exact absurd hw (by simp)
      · split at hw
        · -- b is the selected block
          rename_i hmagic hfit
          unfold heap_split_block at hw
          split at hw
          · -- no split
            simp only [WalkResult.found.injEq] at hw
            obtain ⟨rfl, rfl⟩ := hw
            have hle : total ≤ b.bsize := hfit.2
            refine ⟨?_, ?_, by simp⟩
            · rw [chainB_cons_iff]
              exact ⟨hc.1, hc.2⟩
            · cases bs with
              | nil =>
                  rw [blocksPosB_singleton_iff]
                  left
                  show b.bsize ≠ 0
                  omega
              | cons c cs =>
                  rw [blocksPosB_cons_ne _ _ (by simp)]
                  rw [blocksPosB_cons_ne _ _ (by simp)] at hp
                  simp only [Bool.and_eq_true, decide_eq_true_eq] at hp ⊢
                  exact ⟨by omega, hp.2⟩
          · -- split into the allocated part and a free remainder
            rename_i hsplit
            simp only [WalkResult.found.injEq] at hw
            obtain ⟨rfl, rfl⟩ := hw
            have hle : total ≤ b.bsize := hfit.2
            refine ⟨?_, ?_, by simp⟩
            · rw [chainB_cons_iff]
              have hc1 : b.addr = a := hc.1
              refine ⟨hc1, ?_⟩
              rw [chainB_cons_iff]
              refine ⟨by simp [hc1], ?_⟩
              have heq : a + total + (b.bsize - total) = a + b.bsize := by omega
              simp only [heq]
              exact hc.2
            · rw [blocksPosB_cons_ne _ _ (by simp)]
              simp only [Bool.and_eq_true, decide_eq_true_eq]
              refine ⟨ht, ?_⟩
              cases bs with
              | nil =>
                  rw [blocksPosB_singleton_iff]
                  left
                  simp only
                  omega
              | cons c cs =>
                  rw [blocksPosB_cons_ne _ _ (by simp)]
                  rw [blocksPosB_cons_ne _ _ (by simp)] at hp
                  simp only [Bool.and_eq_true, decide_eq_true_eq] at hp ⊢
                  exact ⟨by simp; omega, hp.2⟩
        · -- walk continues past b
          rename_i hmagic hnofit
          cases hrec : kmalloc_walk total bs with
          | corrupt => rw [hrec] at hw; exact absurd hw (by simp)
          | nofit => rw [hrec] at hw; exact absurd hw (by simp)
          | found bs' a' =>
              rw [hrec] at hw
              simp only [WalkResult.found.injEq] at hw
              obtain ⟨rfl, rfl⟩ := hw
              have hbs : bs ≠ [] := by
                intro hcon
                rw [hcon] at hrec
                simp [kmalloc_walk] at hrec
              obtain ⟨hpos, hp2⟩ := blocksPosB_cons_pos b bs hbs hp
              obtain ⟨hch, hpo, hne⟩ := ih (a + b.bsize) e bs' a' hc.2 hp2 hrec
              refine ⟨?_, ?_, by simp⟩
              · rw [chainB_cons_iff]
                exact ⟨hc.1, hch⟩
              · rw [blocksPosB_cons_ne _ _ hne]
                simp only [Bool.and_eq_true, decide_eq_true_eq]
                exact ⟨hpos, hpo⟩

/-- Positions of allocated blocks in a successful walk: the returned
pointer is the chosen block's header address plus the header size. -/
theorem kmalloc_walk_found_addr (total : Nat) (blocks : List heap_block) :
    ∀ blocks' addr,
      kmalloc_walk total blocks = .found blocks' addr →
      ∃ b ∈ blocks', b.is_free = false ∧ addr = b.addr + sizeof_heap_block := by
  induction blocks with
  | nil => intro blocks' addr h; simp [kmalloc_walk] at h
  | cons b bs ih =>
      intro blocks' addr hw
      unfold kmalloc_walk at hw
      split at hw
      · exact absurd hw (by simp)
      · split at hw
        · unfold heap_split_block at hw
          split at hw
          · simp only [WalkResult.found.injEq] at hw
            obtain ⟨rfl, rfl⟩ := hw
            exact ⟨_, List.mem_cons_self _ _, rfl, rfl⟩
          · simp only [WalkResult.found.injEq] at hw
            obtain ⟨rfl, rfl⟩ := hw
            exact ⟨_, List.mem_cons_self _ _, rfl, rfl⟩
        · cases hrec : kmalloc_walk total bs with
          | corrupt => rw [hrec] at hw; exact absurd hw (by simp)
          | nofit => rw [hrec] at hw; exact absurd hw (by simp)
          | found bs' a' =>
              rw [hrec] at hw
              simp only [WalkResult.found.injEq] at hw
              obtain ⟨rfl, rfl⟩ := hw
              obtain ⟨x, hx, hx2, hx3⟩ := ih bs' a' hrec
              exact ⟨x, List.mem_cons_of_mem b hx, hx2, hx3⟩

/-! ## heap_expand preserves the invariant -/

theorem map_page_heap (s : KernelState) (v p f : Nat) : (map_page s v p f).heap = s.heap := by
  unfold map_page
  dsimp only
  split
  · split <;> rfl
  · rfl

theorem unmap_page_heap (s : KernelState) (v : Nat) : (unmap_page s v).heap = s.heap := by
  unfold unmap_page
  dsimp only
  split <;> rfl

theorem heap_expand_rollback_heap (s : KernelState) (base count : Nat) :
    (heap_expand_rollback s base count).heap = s.heap := by
  unfold heap_expand_rollback
  generalize List.range count = l
  induction l generalizing s with
  | nil => rfl
  | cons j l ih =>
      rw [List.foldl_cons, ih]
      rw [unmap_page_heap]

theorem heap_expand_alloc_heap (base : Nat) (k : Nat) :
    ∀ s i, ((heap_expand_alloc base s i k).2).heap = s.heap := by
  induction k with
  | zero => intro s i; rfl
  | succ k ih =>
      intro s i
      unfold heap_expand_alloc
      dsimp only
      split
      · rw [heap_expand_rollback_heap]
      · rw [ih, map_page_heap]

theorem extend_or_append_wf (blocks : List heap_block) (a e inc : Nat)
    (hne : blocks ≠ []) (hchain : chainB a blocks e = true)
    (hpos : blocksPosB blocks = true) :
    extend_or_append blocks e inc ≠ [] ∧
    chainB a (extend_or_append blocks e inc) (e + inc) = true ∧
    blocksPosB (extend_or_append blocks e inc) = true := by
  obtain ⟨l, hl⟩ : ∃ l, blocks.getLast? = some l := by
    cases hg : blocks.getLast? with
    | none => exact absurd (List.getLast?_eq_none_iff.1 hg) hne
    | some l => exact ⟨l, rfl⟩
  have hsplit : blocks.dropLast ++ [l] = blocks := List.dropLast_append_getLast? l hl
  unfold extend_or_append
  rw [hl]
  dsimp only
  rw [← hsplit] at hchain hpos
  rw [chainB_append_iff] at hchain
  obtain ⟨hch1, hch2⟩ := hchain
  rw [blocksPosB_append_iff _ _ (by simp)] at hpos
  obtain ⟨hpos1, hpos2⟩ := hpos
  rw [chainB_cons_iff, chainB_nil_iff] at hch2
  obtain ⟨hladdr, hlend⟩ := hch2
  split
  · -- last block free: extend it in place
    refine ⟨by simp, ?_, ?_⟩
    · rw [chainB_append_iff]
      refine ⟨hch1, ?_⟩
      rw [chainB_cons_iff, chainB_nil_iff]
      refine ⟨hladdr, ?_⟩
      show a + sizeSum blocks.dropLast + (l.bsize + inc) = e + inc
      omega
    · rw [blocksPosB_append_iff _ _ (by simp)]
      refine ⟨hpos1, ?_⟩
      rw [blocksPosB_singleton_iff]
      rename_i hfree
      right
      exact hfree
  · -- last block allocated: append a fresh free block at the arena end
    refine ⟨by simp, ?_, ?_⟩
    · rw [← hsplit, List.append_assoc]
      rw [chainB_append_iff]
      refine ⟨hch1, ?_⟩
      rw [List.singleton_append, chainB_cons_iff]
      refine ⟨hladdr, ?_⟩
      rw [chainB_cons_iff, chainB_nil_iff]
      refine ⟨by simp; omega, by simp; omega⟩
    · rw [← hsplit, List.append_assoc]
      rw [blocksPosB_append_iff _ _ (by simp)]
      refine ⟨hpos1, ?_⟩
      rw [List.singleton_append, blocksPosB_cons_ne _ _ (by simp)]
      simp only [Bool.and_eq_true, decide_eq_true_eq]
      constructor
      · rename_i hfree
        rw [blocksPosB_singleton_iff] at hpos2
        rcases hpos2 with h | h
        · omega
        · rw [h] at hfree; exact absurd rfl hfree
      · rw [blocksPosB_singleton_iff]
        right
        rfl

theorem heap_expand_wf (s : KernelState) (min_inc : Nat)
    (h : heapWfB s.heap = true) : heapWfB ((heap_expand s min_inc).2).heap = true := by
  unfold heap_expand
  dsimp only
  split
  · exact h
  · split
    · exact h
    · split
      · rw [heap_expand_alloc_heap]
        exact h
      · dsimp only
        rw [heap_expand_alloc_heap]
        unfold heapWfB at h ⊢
        dsimp only
        simp only [Bool.and_eq_true, Bool.not_eq_true'] at h ⊢
        have hne : s.heap.first_block ≠ [] := by
          intro hcon
          rw [hcon] at h
          simp at h
        obtain ⟨hea1, hea2, hea3⟩ := extend_or_append_wf s.heap.first_block s.heap.start_addr
          s.heap.end_addr (heap_growth min_inc) hne h.1.2 h.2
        refine ⟨⟨?_, hea2⟩, hea3⟩
        cases hlist : extend_or_append s.heap.first_block s.heap.end_addr (heap_growth min_inc) with
        | nil => exact absurd hlist hea1
        | cons x xs => rfl

/-! ## kfree / heap_coalesce preserve the invariant -/

theorem find_block_split_eq (target : Nat) (blocks : List heap_block) :
    ∀ pre b post, find_block_split target blocks = some (pre, b, post) →
      blocks = pre ++ b :: post ∧ b.addr = target := by
  induction blocks with
  | nil => intro pre b post h; simp [find_block_split] at h
  | cons x xs ih =>
      intro pre b post h
      unfold find_block_split at h
      split at h
      · rename_i haddr
        simp only [Option.some.injEq, Prod.mk.injEq] at h
        obtain ⟨rfl, rfl, rfl⟩ := h
        exact ⟨rfl, haddr⟩
      · rename_i haddr
        cases hrec : find_block_split target xs with
        | none => rw [hrec] at h; exact absurd h (by simp)
        | some r =>
            rw [hrec] at h
            simp only [Option.some.injEq, Prod.mk.injEq] at h
            obtain ⟨h1, h2, h3⟩ := h
            obtain ⟨hx1, hx2⟩ := ih r.1 r.2.1 r.2.2 (by rw [hrec])
            subst h1
            rw [← h2, ← h3]
            constructor
            · rw [List.cons_append, ← hx1]
            · exact hx2

theorem heap_coalesce_forward_wf (post : List heap_block) :
    ∀ b m e, chainB m (b :: post) e = true → blocksPosB (b :: post) = true →
      0 < b.bsize →
      chainB m ((heap_coalesce_forward b post).1 :: (heap_coalesce_forward b post).2) e = true ∧
      blocksPosB ((heap_coalesce_forward b post).1 :: (heap_coalesce_forward b post).2) = true ∧
      (heap_coalesce_forward b post).1.addr = b.addr ∧
      (heap_coalesce_forward b post).1.is_free = b.is_free ∧
      0 < (heap_coalesce_forward b post).1.bsize := by
  induction post with
  | nil =>
      intro b m e hc hp hpos
      exact ⟨hc, hp, rfl, rfl, hpos⟩
  | cons c cs ih =>
      intro b m e hc hp hpos
      unfold heap_coalesce_forward
      split
      · -- absorb the free successor c
        rename_i hcfree
        rw [chainB_cons_iff] at hc
        obtain ⟨hb, hc2⟩ := hc
        rw [chainB_cons_iff] at hc2
        obtain ⟨hcaddr, hc3⟩ := hc2
        have hchain' : chainB m ({ b with bsize := b.bsize + c.bsize } :: cs) e = true := by
          rw [chainB_cons_iff]
          refine ⟨hb, ?_⟩
          have : m + ({ b with bsize := b.bsize + c.bsize }).bsize = m + b.bsize + c.bsize := by
            simp only
            omega
          rw [this]
          exact hc3
        have hpos' : blocksPosB ({ b with bsize := b.bsize + c.bsize } :: cs) = true := by
          cases cs with
          | nil =>
              rw [blocksPosB_singleton_iff]
              left
              show b.bsize + c.bsize ≠ 0
              omega
          | cons d ds =>
              rw [blocksPosB_cons_ne _ _ (by simp)]
              simp only [Bool.and_eq_true, decide_eq_true_eq]
              have hp2 := (blocksPosB_cons_pos b _ (by simp) hp).2
              have hp3 := (blocksPosB_cons_pos c _ (by simp) hp2).2
              refine ⟨by show 0 < b.bsize + c.bsize; omega, hp3⟩
        obtain ⟨r1, r2, r3, r4, r5⟩ := ih { b with bsize := b.bsize + c.bsize } m e
          hchain' hpos' (by show 0 < b.bsize + c.bsize; omega)
        exact ⟨r1, r2, r3, r4, r5⟩
      · exact ⟨hc, hp, rfl, rfl, hpos⟩

theorem heap_coalesce_wf (pre : List heap_block) (b : heap_block) (post : List heap_block)
    (a e : Nat)
    (hchain : chainB a (pre ++ b :: post) e = true)
    (hpos : blocksPosB (pre ++ b :: post) = true)
    (hbpos : 0 < b.bsize) :
    heap_coalesce pre b post ≠ [] ∧
    chainB a (heap_coalesce pre b post) e = true ∧
    blocksPosB (heap_coalesce pre b post) = true := by
  unfold heap_coalesce
  split
  · exact ⟨by simp, hchain, hpos⟩
  · dsimp only
    rw [chainB_append_iff] at hchain
    obtain ⟨hch1, hch2⟩ := hchain
    rw [blocksPosB_append_iff _ _ (by simp)] at hpos
    obtain ⟨hpos1, hpos2⟩ := hpos
    obtain ⟨f1, f2, f3, f4, f5⟩ := heap_coalesce_forward_wf post b (a + sizeSum pre) e
      hch2 hpos2 hbpos
    cases hg : pre.getLast? with
    | none =>
        -- pre is empty: no backward merge
        dsimp only
        have hpre : pre = [] := List.getLast?_eq_none_iff.1 hg
        subst hpre
        refine ⟨by simp, ?_, ?_⟩
        · rw [chainB_append_iff]
          exact ⟨hch1, f1⟩
        · rw [List.nil_append]
          exact f2
    | some p =>
        have hpre : pre ≠ [] := by
          intro hcon
          rw [hcon] at hg
          simp [List.getLast?] at hg
        have hsplit : pre.dropLast ++ [p] = pre := List.dropLast_append_getLast? p hg
        rw [chainB_cons_iff] at f1
        obtain ⟨fbaddr, fbchain⟩ := f1
        have hs2 : sizeSum (pre.dropLast ++ [p]) = sizeSum pre := by rw [hsplit]
        have hsz : sizeSum (pre.dropLast ++ [p]) = sizeSum pre.dropLast + p.bsize := by
          simp [sizeSum]
        have hd := hch1
        rw [← hsplit, chainB_append_iff] at hd
        obtain ⟨hd1, hd2⟩ := hd
        rw [chainB_cons_iff, chainB_nil_iff] at hd2
        obtain ⟨hpaddr, hpend⟩ := hd2
        have hpposall : ∀ x ∈ pre.dropLast, 0 < x.bsize := by
          intro x hx
          exact hpos1 x (by rw [← hsplit]; exact List.mem_append_left _ hx)
        dsimp only
        split
        · -- backward merge into the free predecessor p
          rename_i hpfree
          refine ⟨by simp, ?_, ?_⟩
          · rw [chainB_append_iff]
            refine ⟨hd1, ?_⟩
            rw [chainB_cons_iff]
            constructor
            · exact hpaddr
            · convert fbchain using 2
              show a + sizeSum pre.dropLast + (p.bsize + (heap_coalesce_forward b post).1.bsize)
                = a + sizeSum pre + (heap_coalesce_forward b post).1.bsize
              omega
          · rw [blocksPosB_append_iff _ _ (by simp)]
            refine ⟨hpposall, ?_⟩
            cases hf2 : (heap_coalesce_forward b post).2 with
            | nil =>
                rw [blocksPosB_singleton_iff]
                left
                show p.bsize + (heap_coalesce_forward b post).1.bsize ≠ 0
                omega
            | cons d ds =>
                rw [blocksPosB_cons_ne _ _ (by simp)]
                simp only [Bool.and_eq_true, decide_eq_true_eq]
                constructor
                · show 0 < p.bsize + (heap_coalesce_forward b post).1.bsize
                  omega
                · rw [hf2] at f2
                  exact (blocksPosB_cons_pos _ _ (by simp) f2).2
        · -- predecessor allocated: keep the forward-merged block in place
          refine ⟨by simp, ?_, ?_⟩
          · rw [chainB_append_iff]
            refine ⟨hch1, ?_⟩
            rw [chainB_cons_iff]
            exact ⟨fbaddr, fbchain⟩
          · rw [blocksPosB_append_iff _ _ (by simp)]
            exact ⟨hpos1, f2⟩

theorem kfree_wf (s : KernelState) (ptr : Nat) (h : heapWfB s.heap = true) :
    heapWfB ((kfree s ptr).heap) = true := by
  unfold kfree
  split
  · exact h
  · split
    · exact h
    · rename_i r hfind
      split
      · exact h
      · split
        · exact h
        · rename_i hmagic hfree
          obtain ⟨hblocks, -⟩ := find_block_split_eq _ _ _ _ _ hfind
          unfold heapWfB at h ⊢
          dsimp only
          simp only [Bool.and_eq_true, Bool.not_eq_true'] at h ⊢
          rw [hblocks] at h
          obtain ⟨⟨-, hchain⟩, hpos⟩ := h
          have hfree' : r.2.1.is_free = false := by
            cases hb : r.2.1.is_free with
            | false => rfl
            | true => exact absurd hb hfree
          have hbpos : 0 < r.2.1.bsize := by
            rw [blocksPosB_append_iff _ _ (by simp)] at hpos
            exact blocksPosB_head_pos _ _ hpos.2 hfree'
          -- replace the block by its freed copy: chain and sizes unchanged
          have hchain' : chainB s.heap.start_addr
              (r.1 ++ { r.2.1 with is_free := true } :: r.2.2) s.heap.end_addr = true := by
            rw [chainB_append_iff] at hchain ⊢
            refine ⟨hchain.1, ?_⟩
            have h2 := hchain.2
            rw [chainB_cons_iff] at h2 ⊢
            exact ⟨h2.1, h2.2⟩
          have hpos' : blocksPosB (r.1 ++ { r.2.1 with is_free := true } :: r.2.2) = true := by
            rw [blocksPosB_append_iff _ _ (by simp)] at hpos ⊢
            refine ⟨hpos.1, ?_⟩
            cases hc : r.2.2 with
            | nil =>
                rw [blocksPosB_singleton_iff]
                right
                rfl
            | cons d ds =>
                rw [blocksPosB_cons_ne _ _ (by simp)]
                simp only [Bool.and_eq_true, decide_eq_true_eq]
                have := hpos.2
                rw [hc] at this
                exact ⟨hbpos, (blocksPosB_cons_pos _ _ (by simp) this).2⟩
          obtain ⟨c1, c2, c3⟩ := heap_coalesce_wf r.1 { r.2.1 with is_free := true } r.2.2
            s.heap.start_addr s.heap.end_addr hchain' hpos' hbpos
          refine ⟨⟨?_, c2⟩, c3⟩
          cases hlist : heap_coalesce r.1 { r.2.1 with is_free := true } r.2.2 with
          | nil => exact absurd hlist c1
          | cons x xs => rfl

theorem kmalloc_fueled_wf (fuel : Nat) :
    ∀ s size, heapWfB s.heap = true →
      heapWfB ((kmalloc_fueled fuel s size).2).heap = true := by
  induction fuel with
  | zero => intro s size h; exact h
  | succ fuel ih =>
      intro s size h
      unfold kmalloc_fueled
      dsimp only
      split
      · exact h
      · split
        · exact h
        · rename_i blocks' a hw
          unfold heapWfB at h ⊢
          dsimp only
          simp only [Bool.and_eq_true, Bool.not_eq_true'] at h ⊢
          obtain ⟨w1, w2, w3⟩ := kmalloc_walk_found_wf (kmalloc_total size)
            (kmalloc_total_pos size) s.heap.first_block s.heap.start_addr s.heap.end_addr
            blocks' a h.1.2 h.2 hw
          refine ⟨⟨?_, w1⟩, w2⟩
          cases blocks' with
          | nil => exact absurd rfl w3
          | cons x xs => rfl
        · split
          · exact heap_expand_wf s (kmalloc_total size) h
          · exact ih _ size (heap_expand_wf s (kmalloc_total size) h)

theorem kmalloc_wf (s : KernelState) (size : Nat) (h : heapWfB s.heap = true) :
    heapWfB ((kmalloc s size).2).heap = true :=
  kmalloc_fueled_wf _ s size h

theorem krealloc_wf (s : KernelState) (ptr size : Nat) (h : heapWfB s.heap = true) :
    heapWfB ((krealloc s ptr size).2).heap = true := by
  unfold krealloc
  split
  · exact kmalloc_wf s size h
  · split
    · exact kfree_wf s ptr h
    · split
      · exact h
      · split
        · exact h
        · dsimp only
          split
          · exact h
          · split
            · rename_i s1 heq
              show heapWfB s1.heap = true
              have hs : s1 = (kmalloc s size).2 := by rw [heq]
              rw [hs]
              exact kmalloc_wf s size h
            · rename_i np s1 heq
              show heapWfB (kfree s1 ptr).heap = true
              have hs : s1 = (kmalloc s size).2 := by rw [heq]
              rw [hs]
              exact kfree_wf _ ptr (kmalloc_wf s size h)

theorem runHeapOp_wf (s : KernelState) (op : HeapOp) (h : heapWfB s.heap = true) :
    heapWfB ((runHeapOp s op).heap) = true := by
  cases op with
  | malloc n => exact kmalloc_wf s _ h
  | free p => exact kfree_wf s _ h
  | realloc p n => exact krealloc_wf s _ _ h

theorem runHeapOps_wf (s : KernelState) (ops : List HeapOp) (h : heapWfB s.heap = true) :
    heapWfB ((runHeapOps s ops).heap) = true := by
  induction ops generalizing s with
  | nil => exact h
  | cons op ops ih => exact ih _ (runHeapOp_wf s op h)

/-! ## heap_init -/

theorem heap_init_alloc_heap (base : Nat) (k : Nat) :
    ∀ s i, ((heap_init_alloc base s i k).2).heap = s.heap := by
  induction k with
  | zero => intro s i; rfl
  | succ k ih =>
      intro s i
      unfold heap_init_alloc
      dsimp only
      split
      · rfl
      · rw [ih, map_page_heap]

/-- A successful `heap_init` leaves exactly the canonical fresh heap: one
free block spanning the whole initial arena. -/
theorem heap_init_success (s : KernelState)
    (h : (heap_init s).heap.initialized = true) :
    (heap_init s).heap =
      { start_addr := HEAP_START_ADDR
        end_addr := HEAP_START_ADDR + HEAP_INITIAL_SIZE
        hsize := HEAP_INITIAL_SIZE
        first_block :=
          [{ addr := HEAP_START_ADDR, magic := HEAP_BLOCK_MAGIC,
             bsize := HEAP_INITIAL_SIZE, is_free := true }]
        initialized := true } := by
  unfold heap_init at h ⊢
  dsimp only at h ⊢
  split at h
  · rename_i hfail
    rw [heap_init_alloc_heap] at h
    simp at h
  · rename_i hok
    rw [if_neg hok]

/-! ## Claim C1 -/

/-- C1: starting from any state in which `heap_init` succeeded, after
every sequence of `kmalloc` / `kfree` / `krealloc` calls (including any
heap growth they trigger through `heap_expand`), walking the block list
from the first block visits blocks at strictly increasing addresses, each
block starting exactly at the end (address + size) of its predecessor,
with the first block at the heap start address and the last block's end
address equal to the heap's end address. -/
theorem C1_heap_list_contiguity (s : KernelState) (ops : List HeapOp)
    (hinit : (heap_init s).heap.initialized = true) :
    heap_contiguous ((runHeapOps (heap_init s) ops).heap) := by
  apply heapWfB_contiguous
  apply runHeapOps_wf
  rw [heap_init_success s hinit]
  decide

/-- A concrete post-paging state on which `heap_init` succeeds: frame 0
is reserved (so `allocate_physical_page` never reports failure spuriously)
and 300 frames are free. -/
def c1_state : KernelState :=
  { phys := ⟨true :: List.replicate 300 false, 301, 1, 1⟩
    paging := ⟨fun _ => 0, fun _ _ => 0⟩
    heap := ⟨0, 0, 0, [], false⟩ }

/-- C1 witness: the invariant instantiated on a concrete successful
initialization. -/
theorem C1_witness :
    (heap_init c1_state).heap.initialized = true ∧
    heap_contiguous ((runHeapOps (heap_init c1_state)
      [HeapOp.malloc 64, HeapOp.malloc 64, HeapOp.free 0xC0400011]).heap) :=
  ⟨by decide,
   C1_heap_list_contiguity c1_state
     [HeapOp.malloc 64, HeapOp.malloc 64, HeapOp.free 0xC0400011] (by decide)⟩

/-! ## Claim C4 -/

/-- A fresh 1 MiB heap with two free physical frames and no page table
present for the arena region. -/
def c4_bug_state : KernelState :=
  { phys := ⟨[true, false, false], 3, 1, 1⟩
    paging := ⟨fun _ => 0, fun _ _ => 0⟩
    heap := ⟨HEAP_START_ADDR, HEAP_START_ADDR + HEAP_INITIAL_SIZE, HEAP_INITIAL_SIZE,
      [⟨HEAP_START_ADDR, HEAP_BLOCK_MAGIC, HEAP_INITIAL_SIZE, true⟩], true⟩ }

/-- C4 is a code bug, exhibited here at the failing input
`kmalloc(0xFFF00FD4)` on `c4_bug_state`.  The claim's premise holds: no
block fits and the growth needed (`0xFFF01000` bytes) would push the heap
far past `HEAP_MAX_SIZE` (true sum `0x100001000`).  The intent documented
in the spec — growth beyond the maximum "always fails cleanly ... without
corrupting" and mid-growth rollback is "all-or-nothing" — requires
`(none, s)` with nothing touched.  But the C bound check
`heap.size + increase > HEAP_MAX_SIZE` wraps in 32-bit `size_t` to
`0x1000` and passes, so the code enters the frame-acquisition loop: it
allocates and maps a heap frame (lazily allocating a page-table frame for
the region), then a frame allocation fails and the rollback frees the
heap-backing frame but not the page-table frame.  The call does return
`NONE` and leaves the block list and arena bounds intact, but the frame
bitmap (frame 2 leaked, `used_pages` 1 → 2) and the page directory
(entry 769 now `0x2003`) are changed, contradicting the claim. -/
theorem C4_heap_growth_overflow :
    kmalloc_walk (kmalloc_total 0xFFF00FD4) c4_bug_state.heap.first_block
      = WalkResult.nofit ∧
    HEAP_MAX_SIZE < c4_bug_state.heap.hsize + heap_growth (kmalloc_total 0xFFF00FD4) ∧
    (kmalloc c4_bug_state 0xFFF00FD4).1 = none ∧
    (kmalloc c4_bug_state 0xFFF00FD4).2.heap = c4_bug_state.heap ∧
    (kmalloc c4_bug_state 0xFFF00FD4).2.phys ≠ c4_bug_state.phys ∧
    (kmalloc c4_bug_state 0xFFF00FD4).2.paging.directory 769
      ≠ c4_bug_state.paging.directory 769 := by
  decide

/-! ## Claim C5 -/

/-- The canonical heap state right after a successful `heap_init`. -/
def fresh_heap : heap_info_t :=
  { start_addr := HEAP_START_ADDR
    end_addr := HEAP_START_ADDR + HEAP_INITIAL_SIZE
    hsize := HEAP_INITIAL_SIZE
    first_block :=
      [{ addr := HEAP_START_ADDR, magic := HEAP_BLOCK_MAGIC,
         bsize := HEAP_INITIAL_SIZE, is_free := true }]
    initialized := true }

/-- C5: on a fresh heap, after `a = allocate(64); b = allocate(64)`, the
state after `free(a); free(b)` is identical to the state after
`free(b); free(a)`, and in both orders the list ends as the single free
block spanning the original arena (coalescing is order-independent). -/
theorem C5_free_order_independence (ph : physical_allocator_t) (pg : paging_state) :
    ∃ a b : Nat,
      (kmalloc ⟨ph, pg, fresh_heap⟩ 64).1 = some a ∧
      (kmalloc (kmalloc ⟨ph, pg, fresh_heap⟩ 64).2 64).1 = some b ∧
      kfree (kfree (kmalloc (kmalloc ⟨ph, pg, fresh_heap⟩ 64).2 64).2 a) b =
        kfree (kfree (kmalloc (kmalloc ⟨ph, pg, fresh_heap⟩ 64).2 64).2 b) a ∧
      (kfree (kfree (kmalloc (kmalloc ⟨ph, pg, fresh_heap⟩ 64).2 64).2 a) b).heap.first_block =
        [{ addr := HEAP_START_ADDR, magic := HEAP_BLOCK_MAGIC,
           bsize := HEAP_INITIAL_SIZE, is_free := true }] :=
  ⟨0xC0400011, 0xC0400062, rfl, rfl, rfl, rfl⟩

/-! ## Claim C7 -/

/-- C7: calling `kfree` on a pointer whose block header has a valid magic
number but is already marked free reports a double-free and leaves the
whole kernel state — every block header, all list links, all heap
metadata — unchanged: `kfree s ptr = s`.  (The diagnostic message goes to
the terminal and has no state effect.) -/
theorem C7_double_free_no_op (s : KernelState) (ptr : Nat)
    (r : List heap_block × heap_block × List heap_block)
    (hfind : find_block_split (ptr - sizeof_heap_block) s.heap.first_block = some r)
    (hmagic : r.2.1.magic = HEAP_BLOCK_MAGIC) (hfree : r.2.1.is_free = true) :
    kfree s ptr = s := by
  unfold kfree
  split
  · rfl
  · rw [hfind]
    dsimp only
    rw [if_neg (by simp [hmagic]), if_pos hfree]

/-- A fresh heap after `a = allocate(32); free(a)`: the arena is again a
single free block. -/
def c7_state : KernelState :=
  { phys := ⟨[], 0, 0, 0⟩
    paging := ⟨fun _ => 0, fun _ _ => 0⟩
    heap := fresh_heap }

/-- C7 witness: the second `free` of the same pointer is a no-op on a
concrete state whose block is already free. -/
theorem C7_witness :
    find_block_split (0xC0400011 - sizeof_heap_block) c7_state.heap.first_block =
      some ([], ⟨HEAP_START_ADDR, HEAP_BLOCK_MAGIC, HEAP_INITIAL_SIZE, true⟩, []) ∧
    kfree c7_state 0xC0400011 = c7_state :=
  ⟨by decide,
   C7_double_free_no_op c7_state 0xC0400011
     ([], ⟨HEAP_START_ADDR, HEAP_BLOCK_MAGIC, HEAP_INITIAL_SIZE, true⟩, [])
     (by decide) rfl rfl⟩

/-! ## Claim C8 -/

theorem cAlign4_eq_of_lt (n : Nat) (h : n + 3 < U32) : cAlign4 n = (n + 3) / 4 * 4 := by
  unfold cAlign4
  apply Nat.eq_of_testBit_eq
  intro i
  rw [Nat.testBit_and]
  have hm : (0xFFFFFFFC : Nat) = (2 ^ 30 - 1) <<< 2 := by decide
  rw [hm, Nat.testBit_shiftLeft, Nat.testBit_two_pow_sub_one]
  have hr : (n + 3) / 4 * 4 = ((n + 3) >>> 2) <<< 2 := by
    rw [Nat.shiftRight_eq_div_pow, Nat.shiftLeft_eq]
  rw [hr, Nat.testBit_shiftLeft, Nat.testBit_shiftRight]
  by_cases h2 : 2 ≤ i
  · by_cases h3 : i < 32
    · have hi : 2 + (i - 2) = i := by omega
      simp [h2, show i - 2 < 30 by omega, hi]
    · have hfalse : (n + 3).testBit (2 + (i - 2)) = false := by
        apply Nat.testBit_lt_two_pow
        calc n + 3 < U32 := h
          _ = 2 ^ 32 := rfl
          _ ≤ 2 ^ (2 + (i - 2)) := Nat.pow_le_pow_right (by omega) (by omega)
      have hfalse2 : (n + 3).testBit i = false := by
        apply Nat.testBit_lt_two_pow
        calc n + 3 < U32 := h
          _ = 2 ^ 32 := rfl
          _ ≤ 2 ^ i := Nat.pow_le_pow_right (by omega) (by omega)
      simp [h2, show ¬(i - 2 < 30) by omega, hfalse, hfalse2]
  · simp [h2]

/-- A fresh-heap state after one `allocate(64)`: an 81-byte allocated
block (payload capacity 64) followed by the free remainder. -/
def c8_state : KernelState :=
  { phys := ⟨[], 0, 0, 0⟩
    paging := ⟨fun _ => 0, fun _ _ => 0⟩
    heap := ⟨HEAP_START_ADDR, HEAP_START_ADDR + HEAP_INITIAL_SIZE, HEAP_INITIAL_SIZE,
      [⟨HEAP_START_ADDR, HEAP_BLOCK_MAGIC, 81, false⟩,
       ⟨HEAP_START_ADDR + 81, HEAP_BLOCK_MAGIC, HEAP_INITIAL_SIZE - 81, true⟩], true⟩ }

/-- A fresh heap whose single block was allocated whole by the no-split
path of `kmalloc(1048528)`: the block keeps the full arena size, so its
payload capacity `0x100000 - 17 = 1048559` is not 4-byte aligned. -/
def c8_state_nosplit : KernelState :=
  { phys := ⟨[true], 1, 1, 0⟩
    paging := ⟨fun _ => 0, fun _ _ => 0⟩
    heap := ⟨HEAP_START_ADDR, HEAP_START_ADDR + HEAP_INITIAL_SIZE, HEAP_INITIAL_SIZE,
      [⟨HEAP_START_ADDR, HEAP_BLOCK_MAGIC, HEAP_INITIAL_SIZE, false⟩], true⟩ }

/-- C8 counterexample: the claim is false as stated, in two independent
ways.  (a) At the allocated block of `c8_state` (payload capacity 64,
which covers a requested size of 0), `krealloc(ptr, 0)` behaves as `free`:
it returns `NONE` instead of the same address and the block is freed and
coalesced rather than left unchanged.  (b) `kmalloc(1048528)` on a fresh
heap takes the no-split path and returns exactly `c8_state_nosplit`'s
block, whose payload capacity 1048559 covers `new_size = 1048558 ≥ 1`;
yet `krealloc` compares the 4-byte-rounded request
`(new_size + 3) & ~3 = 1048560 > 1048559` and takes the
allocate-copy-free path instead of returning the same address. -/
theorem C8_counterexample :
    (cAlign4 0 ≤ 81 - sizeof_heap_block ∧
     ¬ ((krealloc c8_state 0xC0400011 0).1 = some 0xC0400011) ∧
     (krealloc c8_state 0xC0400011 0).2.heap.first_block ≠ c8_state.heap.first_block) ∧
    (kmalloc ⟨⟨[true], 1, 1, 0⟩, ⟨fun _ => 0, fun _ _ => 0⟩, fresh_heap⟩ 1048528
       = (some 0xC0400011, c8_state_nosplit) ∧
     (1048558 : Nat) ≤ HEAP_INITIAL_SIZE - sizeof_heap_block ∧
     ¬ ((krealloc c8_state_nosplit 0xC0400011 1048558).1 = some 0xC0400011)) :=
  ⟨by decide, rfl, by decide, by decide⟩

/-- C8 (amended): for every pointer into a live allocated block (valid
magic, `sizeof(heap_block_t) ≤ size < 2^32`, as every block produced by
`kmalloc` satisfies) and every non-zero `new_size` whose 4-byte-rounded
value `(new_size + 3) & ~3` is at most the block's payload capacity
`block->size - sizeof(heap_block_t)`, `krealloc(ptr, new_size)` returns
the same pointer and leaves the entire state unchanged.  (The code
compares the rounded request against the capacity, so when the capacity
is not 4-byte aligned — as on no-split blocks — sizes within the last
1–3 bytes of capacity are reallocated by copy; and `new_size = 0`
behaves as `free` and returns `NONE`.) -/
theorem C8_realloc_covers_in_place (s : KernelState) (ptr size : Nat)
    (r : List heap_block × heap_block × List heap_block)
    (hptr : ptr ≠ 0) (hsz : size ≠ 0)
    (hfind : find_block_split (ptr - sizeof_heap_block) s.heap.first_block = some r)
    (hmagic : r.2.1.magic = HEAP_BLOCK_MAGIC)
    (hb17 : sizeof_heap_block ≤ r.2.1.bsize) (hb32 : r.2.1.bsize < U32)
    (hfit : cAlign4 size ≤ r.2.1.bsize - sizeof_heap_block) :
    krealloc s ptr size = (some ptr, s) := by
  unfold krealloc
  rw [if_neg hptr, if_neg hsz, hfind]
  dsimp only
  rw [if_neg (by simp [hmagic])]
  have hmod : (r.2.1.bsize + (U32 - sizeof_heap_block)) % U32
      = r.2.1.bsize - sizeof_heap_block := by
    unfold U32 sizeof_heap_block at *
    omega
  rw [if_pos (by rw [hmod]; exact hfit)]

/-- C8 witness: `krealloc(ptr, 32)` on the 64-byte-capacity block of
`c8_state` returns the same pointer with the state untouched. -/
theorem C8_witness :
    ((0xC0400011 : Nat) ≠ 0 ∧ (32 : Nat) ≠ 0 ∧
     find_block_split (0xC0400011 - sizeof_heap_block) c8_state.heap.first_block =
       some ([], ⟨HEAP_START_ADDR, HEAP_BLOCK_MAGIC, 81, false⟩,
         [⟨HEAP_START_ADDR + 81, HEAP_BLOCK_MAGIC, HEAP_INITIAL_SIZE - 81, true⟩]) ∧
     cAlign4 32 ≤ 81 - sizeof_heap_block) ∧
    krealloc c8_state 0xC0400011 32 = (some 0xC0400011, c8_state) :=
  ⟨⟨by decide, by decide, by decide, by decide⟩,
   C8_realloc_covers_in_place c8_state 0xC0400011 32
     ([], ⟨HEAP_START_ADDR, HEAP_BLOCK_MAGIC, 81, false⟩,
       [⟨HEAP_START_ADDR + 81, HEAP_BLOCK_MAGIC, HEAP_INITIAL_SIZE - 81, true⟩])
     (by decide) (by decide) (by decide) rfl (by decide) (by decide) (by decide)⟩

/-! ## Claim C10 -/

theorem kmalloc_fueled_some_addr (fuel : Nat) :
    ∀ s size r s', kmalloc_fueled fuel s size = (some r, s') →
      ∃ b ∈ s'.heap.first_block, b.is_free = false ∧ r = b.addr + sizeof_heap_block := by
  induction fuel with
  | zero => intro s size r s' h; simp [kmalloc_fueled] at h
  | succ fuel ih =>
      intro s size r s' h
      unfold kmalloc_fueled at h
      dsimp only at h
      split at h
      · simp at h
      · split at h
        · simp at h
        · rename_i blocks' a hw
          simp only [Prod.mk.injEq, Option.some.injEq] at h
          obtain ⟨rfl, rfl⟩ := h
          obtain ⟨b, hb, hb2, hb3⟩ :=
            kmalloc_walk_found_addr (kmalloc_total size) s.heap.first_block blocks' a hw
          exact ⟨b, hb, hb2, hb3⟩
        · split at h
          · simp at h
          · exact ih _ _ _ _ h

/-- C10: the packed `heap_block_t` header occupies 17 bytes
(4 + 4 + 1 + 4 + 4), every pointer a successful `kmalloc` returns is its
block's header address plus 17, the first allocation on a fresh heap
returns `HEAP_START_ADDR + 17 = 0xC0400011`, and that address is not
4-byte aligned (it is ≡ 1 mod 4) even though requested sizes are rounded
up to a 4-byte boundary. -/
theorem C10_header_17_bytes :
    sizeof_heap_block = 17 ∧
    (∀ s size r s', kmalloc s size = (some r, s') →
      ∃ b ∈ s'.heap.first_block, b.is_free = false ∧ r = b.addr + sizeof_heap_block) ∧
    (∀ (ph : physical_allocator_t) (pg : paging_state),
      (kmalloc ⟨ph, pg, fresh_heap⟩ 100).1 = some (HEAP_START_ADDR + sizeof_heap_block)) ∧
    (HEAP_START_ADDR + sizeof_heap_block) % 4 = 1 :=
  ⟨rfl, fun s size r s' h => kmalloc_fueled_some_addr _ s size r s' h,
   fun _ _ => rfl, by decide⟩

def c10_state : KernelState :=
  { phys := ⟨[], 0, 0, 0⟩
    paging := ⟨fun _ => 0, fun _ _ => 0⟩
    heap := fresh_heap }

/-- C10 witness: the general header-offset property instantiated on a
concrete successful allocation. -/
theorem C10_witness :
    kmalloc c10_state 100 = (some 0xC0400011, (kmalloc c10_state 100).2) ∧
    ∃ b ∈ (kmalloc c10_state 100).2.heap.first_block,
      b.is_free = false ∧ 0xC0400011 = b.addr + sizeof_heap_block :=
  ⟨rfl,
   C10_header_17_bytes.2.1 c10_state 100 0xC0400011 (kmalloc c10_state 100).2 rfl⟩

/-- C9 witness: the hint invariant instantiated on a concrete memory map
after an `allocate_frame` call. -/
theorem C9_witness :
    hint_inv (runPhysOps
      (physical_memory_init [(⟨0, 0x100000, 1⟩ : multiboot_mmap_entry)] 0x100000)
      [PhysOp.alloc]) :=
  (C9_hint_never_skips [⟨0, 0x100000, 1⟩] 0x100000 [PhysOp.alloc]).1

/-- C5 witness: the free-order independence instantiated at a concrete
ambient frame-allocator and paging state. -/
theorem C5_witness :
    ∃ a b : Nat,
      (kmalloc ⟨⟨[], 0, 0, 0⟩, ⟨fun _ => 0, fun _ _ => 0⟩, fresh_heap⟩ 64).1 = some a ∧
      (kmalloc (kmalloc ⟨⟨[], 0, 0, 0⟩, ⟨fun _ => 0, fun _ _ => 0⟩, fresh_heap⟩ 64).2 64).1
        = some b ∧
      kfree (kfree
          (kmalloc (kmalloc ⟨⟨[], 0, 0, 0⟩, ⟨fun _ => 0, fun _ _ => 0⟩, fresh_heap⟩ 64).2
            64).2 a) b =
        kfree (kfree
          (kmalloc (kmalloc ⟨⟨[], 0, 0, 0⟩, ⟨fun _ => 0, fun _ _ => 0⟩, fresh_heap⟩ 64).2
            64).2 b) a ∧
      (kfree (kfree
          (kmalloc (kmalloc ⟨⟨[], 0, 0, 0⟩, ⟨fun _ => 0, fun _ _ => 0⟩, fresh_heap⟩ 64).2
            64).2 a) b).heap.first_block =
        [{ addr := HEAP_START_ADDR, magic := HEAP_BLOCK_MAGIC,
           bsize := HEAP_INITIAL_SIZE, is_free := true }] :=
  C5_free_order_independence ⟨[], 0, 0, 0⟩ ⟨fun _ => 0, fun _ _ => 0⟩

end SKOS
